import Mathlib

/-!
Verification of the reconciliation-and-delivery core of the update-data-scraper
repository, as a shallow embedding in Lean.

The embedding follows the Python source:
* the Reconciler (NotificationManager.process_new_scraped_data and its helper
  functions determine_category, format_update, get_existing_hashes) from
  src/data/notification_manager.py;
* the snapshot persistence and cycle driver (save_main_data, save_notifications,
  clear_notifications, process_next_scrape_cycle) from the same file, modelled
  as traces of file-system operations;
* the delivery queue (NotificationQueueManager) from
  src/data/notification_queue.py.

Python dictionaries holding raw scraped records are modelled as structures with
optional fields (a missing key is None); dict.get with a default becomes
Option.getD.  Timestamps are abstract strings supplied by the caller.
-/

namespace Scraper

/-- A raw scraped record as produced by the site scrapers: a dictionary whose
keys may be absent.  Fields are the ones read by the reconciliation code. -/
structure RawUpdate where
  id : Option String := none
  title : Option String := none
  content_summary : Option String := none
  source : Option String := none
  url : Option String := none
  date : Option String := none
  scraped_at : Option String := none
  priority : Option String := none
  content_hash : Option String := none
  exam_type : Option String := none
deriving DecidableEq, Repr

/-- A formatted record as stored in the canonical and delta snapshots
(NotificationManager.format_update output). -/
structure Record where
  id : Option String
  title : String
  content_summary : String
  source : String
  url : String
  date : String
  scraped_at : String
  priority : String
  content_hash : String
deriving DecidableEq, Repr

/-- format_update: field-normalized copy of a raw update, with the same
defaults as the Python dict.get calls. -/
def format_update (u : RawUpdate) : Record :=
  { id := u.id
    title := u.title.getD ""
    content_summary := u.content_summary.getD ""
    source := u.source.getD ""
    url := u.url.getD ""
    date := u.date.getD ""
    scraped_at := u.scraped_at.getD ""
    priority := u.priority.getD "medium"
    content_hash := u.content_hash.getD "" }

/-- The content hash the reconciliation loop extracts from a raw update
(update.get with an empty-string default). -/
def rawHash (u : RawUpdate) : String :=
  u.content_hash.getD ""

/-- Python str.lower(), as a character-wise map over the string's character
list (Char.toLower lowers ASCII letters). -/
def lowerString (s : String) : String :=
  ⟨s.data.map Char.toLower⟩

/-- Substring test on character lists, mirroring the Python `in` operator on
strings (an empty pattern is contained in everything). -/
def charsContain (pat : List Char) : List Char → Bool
  | [] => pat.isEmpty
  | c :: cs => pat.isPrefixOf (c :: cs) || charsContain pat cs

/-- Substring containment on strings (Python `pat in s`). -/
def strContains (s pat : String) : Bool :=
  charsContain pat.data s.data

/-- The fixed category set of the canonical snapshot. -/
inductive Category
  | jee
  | gate
  | jee_adv
  | upsc
deriving DecidableEq, Repr

/-- determine_category: keyword classification over the lowered exam_type and
source fields, checked in the source's fixed order (JEE Advanced, then GATE,
then UPSC, then JEE, defaulting to JEE). -/
def determine_category (u : RawUpdate) : Category :=
  let exam_type := lowerString (u.exam_type.getD "")
  let source := lowerString (u.source.getD "")
  if strContains source "jee advanced" || strContains source "jeeadv" ||
      strContains exam_type "jee advanced" || strContains exam_type "jeeadv" then
    .jee_adv
  else if exam_type == "gate" || strContains source "gate" ||
      strContains exam_type "gate" then
    .gate
  else if exam_type == "upsc" || strContains source "upsc" ||
      strContains exam_type "upsc" then
    .upsc
  else if exam_type == "jee" || strContains source "jee main" ||
      strContains exam_type "jee" || strContains source "jee" then
    .jee
  else
    .jee

/-- The canonical snapshot document (data/exam_data.json). -/
structure MainData where
  jee : List Record
  gate : List Record
  jee_adv : List Record
  upsc : List Record
  total_notification : Nat
  last_updated : Option String
  last_scrape : Option String
deriving DecidableEq, Repr

/-- The delta snapshot document (data/updated_notifications.json). -/
structure NotificationData where
  jee : List Record
  gate : List Record
  jee_adv : List Record
  upsc : List Record
  total_new_notifications : Nat
  last_updated : Option String
  scrape_timestamp : Option String
deriving DecidableEq, Repr

/-- The empty, well-formed default canonical snapshot returned by
get_existing_data when no file exists. -/
def emptyMainData : MainData :=
  { jee := [], gate := [], jee_adv := [], upsc := []
    total_notification := 0, last_updated := none, last_scrape := none }

/-- The empty, well-formed default delta snapshot returned by
get_notification_data when no file exists. -/
def emptyNotificationData : NotificationData :=
  { jee := [], gate := [], jee_adv := [], upsc := []
    total_new_notifications := 0, last_updated := none, scrape_timestamp := none }

/-- Category list selection in the canonical snapshot (existing_data[category]). -/
def getCat (d : MainData) : Category → List Record
  | .jee => d.jee
  | .gate => d.gate
  | .jee_adv => d.jee_adv
  | .upsc => d.upsc

/-- Category list update in the canonical snapshot. -/
def setCat (d : MainData) (c : Category) (l : List Record) : MainData :=
  match c with
  | .jee => { d with jee := l }
  | .gate => { d with gate := l }
  | .jee_adv => { d with jee_adv := l }
  | .upsc => { d with upsc := l }

/-- Category list selection in the delta snapshot. -/
def getNCat (d : NotificationData) : Category → List Record
  | .jee => d.jee
  | .gate => d.gate
  | .jee_adv => d.jee_adv
  | .upsc => d.upsc

/-- Category list update in the delta snapshot. -/
def setNCat (d : NotificationData) (c : Category) (l : List Record) : NotificationData :=
  match c with
  | .jee => { d with jee := l }
  | .gate => { d with gate := l }
  | .jee_adv => { d with jee_adv := l }
  | .upsc => { d with upsc := l }

/-- The content hashes of a record list, in order. -/
def hashesOf (l : List Record) : List String :=
  l.map (·.content_hash)

/-- get_existing_hashes: all content hashes appearing in the canonical
snapshot, over the fixed category order jee, gate, jee_adv, upsc. -/
def get_existing_hashes (d : MainData) : List String :=
  hashesOf d.jee ++ hashesOf d.gate ++ hashesOf d.jee_adv ++ hashesOf d.upsc

/-- The inner for-loop of the update branch: replace the first record whose
content_hash equals h by r, reporting whether a replacement happened
(which is what increments updated_items_count). -/
def replaceFirstByHash (l : List Record) (h : String) (r : Record) :
    List Record × Bool :=
  match l with
  | [] => ([], false)
  | x :: xs =>
      if x.content_hash = h then
        (r :: xs, true)
      else
        let p := replaceFirstByHash xs h r
        (x :: p.1, p.2)

/-- The mutable state of the processing loop in process_new_scraped_data:
the canonical snapshot being updated, the delta snapshot being built, the
known-hash set, and the two counters. -/
structure ReconcileState where
  main : MainData
  notif : NotificationData
  hashes : List String
  newCount : Nat
  updCount : Nat
deriving DecidableEq, Repr

/-- One iteration of the processing loop in process_new_scraped_data: skip a
record with an empty hash; append a record with a fresh hash to its category
in both snapshots and record the hash; otherwise replace the existing record
with the same hash in the assigned category in place. -/
def processUpdate (s : ReconcileState) (u : RawUpdate) : ReconcileState :=
  let ch := rawHash u
  if ch = "" then
    s
  else if ch ∈ s.hashes then
    let c := determine_category u
    let f := format_update u
    let p := replaceFirstByHash (getCat s.main c) ch f
    { s with
      main := setCat s.main c p.1
      updCount := s.updCount + (if p.2 then 1 else 0) }
  else
    let c := determine_category u
    let f := format_update u
    { s with
      main := setCat s.main c (getCat s.main c ++ [f])
      notif := setNCat s.notif c (getNCat s.notif c ++ [f])
      hashes := s.hashes ++ [ch]
      newCount := s.newCount + 1 }

/-- Python string comparison: strict lexicographic order over the code
points. -/
def charsLt : List Char → List Char → Bool
  | [], [] => false
  | [], _ :: _ => true
  | _ :: _, [] => false
  | a :: as, b :: bs =>
      if a < b then true
      else if b < a then false
      else charsLt as bs

/-- Python s < t on strings. -/
def strLt (a b : String) : Bool :=
  charsLt a.data b.data

/-- The sort order applied to every category list: scraped_at descending
(newest first, Python list.sort with a key and reverse=True, which is
stable); a record may stay before another exactly when its key is not
strictly below the other's. -/
def sortRel (a b : Record) : Prop :=
  strLt a.scraped_at b.scraped_at = false

instance : DecidableRel sortRel := fun a b =>
  inferInstanceAs (Decidable (strLt a.scraped_at b.scraped_at = false))

/-- charsLt is asymmetric. -/
def charsLt_asymm : ∀ x y : List Char, charsLt x y = true → charsLt y x = false := by
  intro x
  induction x with
  | nil =>
      intro y h
      cases y with
      | nil => simp [charsLt] at h
      | cons b bs => simp [charsLt]
  | cons a as ih =>
      intro y h
      cases y with
      | nil => simp [charsLt] at h
      | cons b bs =>
          by_cases hab : a < b
          · have hba : ¬ b < a := lt_asymm hab
            simp [charsLt, hab, hba]
          · by_cases hba : b < a
            · simp [charsLt, hab, hba] at h
            · simp [charsLt, hab, hba] at h ⊢
              exact ih bs h

/-- Two lists unrelated by charsLt in both directions are equal. -/
def charsLt_conn : ∀ x y : List Char,
    charsLt x y = false → charsLt y x = false → x = y := by
  intro x
  induction x with
  | nil =>
      intro y h1 _
      cases y with
      | nil => rfl
      | cons b bs => simp [charsLt] at h1
  | cons a as ih =>
      intro y h1 h2
      cases y with
      | nil => simp [charsLt] at h2
      | cons b bs =>
          by_cases hab : a < b
          · simp [charsLt, hab] at h1
          · by_cases hba : b < a
            · simp [charsLt, hba] at h2
            · have heq : a = b := le_antisymm (not_lt.mp hba) (not_lt.mp hab)
              simp [charsLt, hab, hba] at h1 h2
              rw [heq, ih bs h1 h2]

/-- charsLt is cotransitive. -/
def charsLt_cotrans : ∀ x y z : List Char, charsLt x z = true →
    charsLt x y = true ∨ charsLt y z = true := by
  intro x
  induction x with
  | nil =>
      intro y z h
      cases z with
      | nil => simp [charsLt] at h
      | cons c cs =>
          cases y with
          | nil => exact Or.inr (by simp [charsLt])
          | cons b bs => exact Or.inl (by simp [charsLt])
  | cons a as ih =>
      intro y z h
      cases z with
      | nil => simp [charsLt] at h
      | cons c cs =>
          cases y with
          | nil => exact Or.inr (by simp [charsLt])
          | cons b bs =>
              by_cases hac : a < c
              · by_cases hab : a < b
                · exact Or.inl (by simp [charsLt, hab])
                · have hbc : b < c := lt_of_le_of_lt (not_lt.mp hab) hac
                  exact Or.inr (by simp [charsLt, hbc])
              · by_cases hca : c < a
                · simp [charsLt, hac, hca] at h
                · have haceq : a = c :=
                    le_antisymm (not_lt.mp hca) (not_lt.mp hac)
                  simp [charsLt, hac, hca] at h
                  by_cases hab : a < b
                  · exact Or.inl (by simp [charsLt, hab])
                  · by_cases hba : b < a
                    · have hbc : b < c := haceq ▸ hba
                      exact Or.inr (by simp [charsLt, hbc])
                    · have habeq : a = b :=
                        le_antisymm (not_lt.mp hba) (not_lt.mp hab)
                      rcases ih bs cs h with hl | hr
                      · exact Or.inl (by simp [charsLt, hab, hba, hl])
                      · refine Or.inr ?_
                        have hbc1 : ¬ b < c := by
                          rw [← habeq, ← haceq]
                          exact lt_irrefl a
                        have hcb1 : ¬ c < b := by
                          rw [← habeq, ← haceq]
                          exact lt_irrefl a
                        simp [charsLt, hbc1, hcb1, hr]

instance : IsTotal Record sortRel := by
  constructor
  intro a b
  by_cases h : strLt a.scraped_at b.scraped_at = true
  · exact Or.inr (charsLt_asymm _ _ h)
  · exact Or.inl (Bool.eq_false_iff.mpr h)

instance : IsTrans Record sortRel := by
  constructor
  intro a b c hab hbc
  by_contra hac
  have hac' : charsLt a.scraped_at.data c.scraped_at.data = true := by
    cases hfa : strLt a.scraped_at c.scraped_at with
    | false => exact absurd hfa hac
    | true => exact hfa
  rcases charsLt_cotrans _ b.scraped_at.data _ hac' with h | h
  · exact absurd h (by simp [sortRel, strLt] at hab; simp [hab])
  · exact absurd h (by simp [sortRel, strLt] at hbc; simp [hbc])

/-- Stable sort of a category list by scraped_at descending. -/
def sortRecords (l : List Record) : List Record :=
  l.insertionSort sortRel

/-- The result record of process_new_scraped_data. -/
structure ProcessStats where
  new_items : Nat
  updated_items : Nat
  new_notifications : Nat
deriving DecidableEq, Repr

/-- Return value of process_new_scraped_data. -/
structure ProcessResult where
  main_data : MainData
  notification_data : NotificationData
  stats : ProcessStats
deriving DecidableEq, Repr

/-- The initial loop state of process_new_scraped_data: the canonical snapshot
read from disk, a fresh empty delta stamped with the current time, the known
hashes of the snapshot, and zeroed counters. -/
def initState (now : String) (existing : MainData) : ReconcileState :=
  { main := existing
    notif :=
      { jee := [], gate := [], jee_adv := [], upsc := []
        total_new_notifications := 0
        last_updated := some now, scrape_timestamp := some now }
    hashes := get_existing_hashes existing
    newCount := 0
    updCount := 0 }

/-- The tail of process_new_scraped_data for the canonical snapshot: sort all
category lists by scraped_at descending, recompute total_notification as the
sum of the list lengths, and stamp the timestamps. -/
def finalizeMain (now : String) (m : MainData) : MainData :=
  { jee := sortRecords m.jee
    gate := sortRecords m.gate
    jee_adv := sortRecords m.jee_adv
    upsc := sortRecords m.upsc
    total_notification :=
      (sortRecords m.jee).length + (sortRecords m.gate).length +
        (sortRecords m.jee_adv).length + (sortRecords m.upsc).length
    last_updated := some now
    last_scrape := some now }

/-- The tail of process_new_scraped_data for the delta snapshot: sort all
category lists and recompute total_new_notifications. -/
def finalizeNotif (now : String) (n : NotificationData) : NotificationData :=
  { jee := sortRecords n.jee
    gate := sortRecords n.gate
    jee_adv := sortRecords n.jee_adv
    upsc := sortRecords n.upsc
    total_new_notifications :=
      (sortRecords n.jee).length + (sortRecords n.gate).length +
        (sortRecords n.jee_adv).length + (sortRecords n.upsc).length
    last_updated := n.last_updated
    scrape_timestamp := n.scrape_timestamp }

/-- NotificationManager.process_new_scraped_data: fold the processing loop
over the batch in arrival order, sort every category list of both snapshots by
scraped_at descending, and recompute the metadata.  The current wall-clock
time is passed in as now. -/
def process_new_scraped_data (now : String) (existing : MainData)
    (new_updates : List RawUpdate) : ProcessResult :=
  let s := new_updates.foldl processUpdate (initState now existing)
  { main_data := finalizeMain now s.main
    notification_data := finalizeNotif now s.notif
    stats :=
      { new_items := s.newCount
        updated_items := s.updCount
        new_notifications := (finalizeNotif now s.notif).total_new_notifications } }

/-! ### Delivery queue (src/data/notification_queue.py) -/

/-- Per-item states of the delivery queue. -/
inductive NotificationStatus
  | pending
  | sending
  | sent
  | failed
  | retry
deriving DecidableEq, Repr

/-- A queued delivery work item (dataclass QueuedNotification).  The payload
is kept abstract as a string. -/
structure QueuedNotification where
  id : String
  notification_data : String
  status : NotificationStatus
  created_at : String
  attempts : Nat := 0
  max_attempts : Nat := 3
  last_attempt : Option String := none
  error_message : Option String := none
deriving DecidableEq, Repr

/-- Outcome of one webhook delivery call: the call returns success, returns a
failure result carrying an optional error string, or raises an exception. -/
inductive WebhookOutcome
  | success
  | failure (err : Option String)
  | raised (msg : String)
deriving DecidableEq, Repr

/-- The mutations _process_notification performs before invoking the webhook:
status becomes sending, attempts is incremented, last_attempt is stamped. -/
def markSending (now : String) (n : QueuedNotification) : QueuedNotification :=
  { n with status := .sending, attempts := n.attempts + 1, last_attempt := some now }

/-- NotificationQueueManager._process_notification: mark the item sending,
call the webhook, then move the item to sent, retry (re-queued) or failed.
An exception anywhere in the body is caught and sends the item straight to
failed.  The boolean reports whether the item was put back into the queue. -/
def process_notification (now : String) (outcome : WebhookOutcome)
    (n : QueuedNotification) : QueuedNotification × Bool :=
  let m := markSending now n
  match outcome with
  | .success => ({ m with status := .sent, error_message := none }, false)
  | .failure err =>
      let m := { m with error_message := some (err.getD "Unknown error") }
      if m.attempts < m.max_attempts then
        ({ m with status := .retry }, true)
      else
        ({ m with status := .failed }, false)
  | .raised msg =>
      ({ m with status := .failed, error_message := some msg }, false)

/-- One pass of the worker loop _process_queue: take the next item off the
FIFO queue and process it; a retried item re-enters at the back of the queue.
Returns none when the queue is empty. -/
def worker_step (now : String) (outcome : WebhookOutcome)
    (q : List QueuedNotification) :
    Option (QueuedNotification × List QueuedNotification) :=
  match q with
  | [] => none
  | n :: rest =>
      let p := process_notification now outcome n
      some (p.1, if p.2 then rest ++ [p.1] else rest)

/-- Run the worker loop for at most fuel iterations with a fixed delivery
outcome, returning the final queue and the list of processed items (each in
its post-processing state, in processing order). -/
def run_worker (now : String) (outcome : WebhookOutcome) :
    Nat → List QueuedNotification →
    List QueuedNotification × List QueuedNotification
  | 0, q => (q, [])
  | Nat.succ fuel, q =>
      match worker_step now outcome q with
      | none => (q, [])
      | some (n, q') =>
          let r := run_worker now outcome fuel q'
          (r.1, n :: r.2)

/-- The persisted queue document (data/notification_queue.json): _save_queue
drains the live queue, serializes exactly the items found there, and writes
them back together with a count. -/
structure QueueDocument where
  queue : List QueuedNotification
  total_items : Nat
deriving DecidableEq, Repr

/-- NotificationQueueManager._save_queue: the document written to disk holds
precisely the items currently sitting in the live queue. -/
def save_queue_doc (q : List QueuedNotification) : QueueDocument :=
  { queue := q, total_items := q.length }

/-- Per-state counters reported by get_queue_status. -/
structure StatusCounts where
  pending : Nat
  sending : Nat
  sent : Nat
  failed : Nat
  retry : Nat
deriving DecidableEq, Repr

/-- Count the items of the persisted document that carry a given status. -/
def countWithStatus (doc : QueueDocument) (st : NotificationStatus) : Nat :=
  (doc.queue.filter (fun n => n.status = st)).length

/-- NotificationQueueManager.get_queue_status: the per-state counts are
derived by scanning the persisted queue document. -/
def get_queue_status (doc : QueueDocument) : StatusCounts :=
  { pending := countWithStatus doc .pending
    sending := countWithStatus doc .sending
    sent := countWithStatus doc .sent
    failed := countWithStatus doc .failed
    retry := countWithStatus doc .retry }

/-- NotificationQueueManager._load_queue: on startup only pending and retry
items of the persisted document re-enter the live queue. -/
def load_queue (doc : QueueDocument) : List QueuedNotification :=
  doc.queue.filter (fun n => n.status = .pending ∨ n.status = .retry)

/-- A concrete pending work item with the default attempt budget, used by the
concrete evaluation theorems below. -/
def sampleItem : QueuedNotification :=
  { id := "n1", notification_data := "p", status := .pending, created_at := "t0" }

/-! ### Snapshot persistence as file-system operation traces
(NotificationManager.save_main_data, save_notifications, clear_notifications,
process_next_scrape_cycle) -/

/-- File-system operations the persistence layer performs, in program order. -/
inductive FsOp
  | copy (src dst : String)
  | write (path : String)
  | rename (src dst : String)
  | remove (path : String)
deriving DecidableEq, Repr

/-- Path of the canonical snapshot document. -/
def main_data_file : String := "data/exam_data.json"

/-- Path of the delta snapshot document. -/
def notification_file : String := "data/updated_notifications.json"

/-- Path of the persisted queue document. -/
def queue_file : String := "data/notification_queue.json"

/-- NotificationManager.save_main_data: optionally copy the current file to a
timestamped backup, remove backups beyond the newest five, then open the
target for writing and dump the document into it directly. -/
def save_main_data_ops (backupNeeded : Bool) (backupPath : String)
    (staleBackups : List String) : List FsOp :=
  (if backupNeeded then
    FsOp.copy main_data_file backupPath :: staleBackups.map FsOp.remove
  else []) ++ [FsOp.write main_data_file]

/-- NotificationManager.save_notifications: open the delta file for writing
and dump the document into it directly. -/
def save_notifications_ops : List FsOp :=
  [FsOp.write notification_file]

/-- NotificationManager.clear_notifications: delete the delta file if it
exists. -/
def clear_notifications_ops (notifExists : Bool) : List FsOp :=
  if notifExists then [FsOp.remove notification_file] else []

/-- NotificationManager.process_next_scrape_cycle: clear the delta file,
reconcile the batch, save the canonical snapshot, and only when the new delta
is non-empty save the delta file and push its records into the queue (each
enqueue re-writes the queue document).  Returns the reconciliation result and
the file-system trace of the cycle. -/
def process_next_scrape_cycle (now : String) (notifExists backupNeeded : Bool)
    (backupPath : String) (staleBackups : List String) (existing : MainData)
    (new_scraped_data : List RawUpdate) : ProcessResult × List FsOp :=
  let result := process_new_scraped_data now existing new_scraped_data
  let ops :=
    clear_notifications_ops notifExists ++
    save_main_data_ops backupNeeded backupPath staleBackups ++
    (if result.notification_data.total_new_notifications > 0 then
      save_notifications_ops ++
        List.replicate result.notification_data.total_new_notifications
          (FsOp.write queue_file)
    else [])
  (result, ops)

/-- The reader of the delta file (get_notification_data): when the file is
absent the empty default document is substituted. -/
def get_notification_data (notifExists : Bool) (stored : NotificationData) :
    NotificationData :=
  if notifExists then stored else emptyNotificationData

/-- Formalization of the atomic-write discipline claimed by the spec for a
snapshot save: the trace never writes the target path directly, and instead
writes some distinct temporary path which is then renamed over the target. -/
def atomicSnapshotWrite (ops : List FsOp) (target : String) : Prop :=
  (∀ op ∈ ops, op ≠ FsOp.write target) ∧
  ∃ tmp, tmp ≠ target ∧ FsOp.write tmp ∈ ops ∧ FsOp.rename tmp target ∈ ops

/-- All records of the canonical snapshot, over the fixed category order. -/
def allRecords (d : MainData) : List Record :=
  d.jee ++ d.gate ++ d.jee_adv ++ d.upsc

/-- The non-empty content hashes carried by a raw batch, in arrival order
(records with an empty or missing hash are skipped by the loop). -/
def batchHashes (l : List RawUpdate) : List String :=
  (l.map rawHash).filter (fun h => h ≠ "")

/-- A raw update with no title but a usable content hash. -/
def noTitleUpdate : RawUpdate :=
  { content_hash := some "hX" }

/-- A raw update with every key missing (in particular no content hash). -/
def emptyRawUpdate : RawUpdate := {}

/-- A record stored in the gate category whose hash will collide with a
jee-classified incoming update. -/
def sampleGateRecord : Record :=
  { id := none
    title := "GATE exam"
    content_summary := ""
    source := "GATE office"
    url := ""
    date := ""
    scraped_at := "2025-01-01"
    priority := "medium"
    content_hash := "h1" }

/-- A snapshot holding sampleGateRecord under gate. -/
def sampleSnapshot : MainData :=
  { emptyMainData with gate := [sampleGateRecord] }

/-- An incoming update carrying the hash of sampleGateRecord but classified
(by its empty source and exam_type) into jee. -/
def sampleCrossUpdate : RawUpdate :=
  { content_hash := some "h1" }

/-- Two raw updates sharing one scraped_at value (a sorting tie) but carrying
different hashes. -/
def tieUpdateA : RawUpdate :=
  { title := some "A", content_hash := some "ha", scraped_at := some "2025-01-01" }

/-- See tieUpdateA. -/
def tieUpdateB : RawUpdate :=
  { title := some "B", content_hash := some "hb", scraped_at := some "2025-01-01" }

/-- Loop states that agree up to reordering inside each category list: the
same records per category in both snapshots (as multisets), the same known
hashes (as a set), and the same counters. -/
def StateEquiv (s₁ s₂ : ReconcileState) : Prop :=
  (∀ c, List.Perm (getCat s₁.main c) (getCat s₂.main c)) ∧
  (∀ c, List.Perm (getNCat s₁.notif c) (getNCat s₂.notif c)) ∧
  (∀ h, h ∈ s₁.hashes ↔ h ∈ s₂.hashes) ∧
  s₁.newCount = s₂.newCount ∧ s₁.updCount = s₂.updCount

/-- Loop-state invariant: every category list (canonical and delta) carries
pairwise-distinct hashes, all of them present in the known-hash set. -/
def CatInv (s : ReconcileState) : Prop :=
  ∀ c, ((hashesOf (getCat s.main c)).Nodup ∧
      ∀ h ∈ hashesOf (getCat s.main c), h ∈ s.hashes) ∧
    ((hashesOf (getNCat s.notif c)).Nodup ∧
      ∀ h ∈ hashesOf (getNCat s.notif c), h ∈ s.hashes)

/-! ## Theorems -/

/-- The worker loop does nothing on an empty queue. -/
theorem run_worker_nil (now : String) (o : WebhookOutcome) :
    ∀ fuel, run_worker now o fuel [] = ([], []) := by
  intro fuel
  cases fuel with
  | zero => rfl
  | succ f => rfl

/-- Characterization of one processing pass under a failure result: the item
ends in retry (and is re-queued) while attempts remain, otherwise in failed. -/
theorem process_notification_failure_fields (now : String) (e : Option String)
    (it : QueuedNotification) :
    (process_notification now (.failure e) it).1.attempts = it.attempts + 1 ∧
    (process_notification now (.failure e) it).1.max_attempts
      = it.max_attempts ∧
    (process_notification now (.failure e) it).1.status
      = (if it.attempts + 1 < it.max_attempts then .retry else .failed) ∧
    (process_notification now (.failure e) it).2
      = decide (it.attempts + 1 < it.max_attempts) := by
  by_cases hagain : it.attempts + 1 < it.max_attempts
  · simp [process_notification, markSending, if_pos hagain]
    omega
  · simp [process_notification, markSending, if_neg hagain]
    omega

/-- With an always-failing delivery, a single queued item with attempts still
remaining is retried until its attempt budget is spent and then fails
terminally, leaving the queue empty. -/
theorem run_worker_fail_exhausts (now : String) (e : Option String) :
    ∀ (fuel : Nat) (it : QueuedNotification),
      it.attempts < it.max_attempts → it.max_attempts - it.attempts ≤ fuel →
      (run_worker now (.failure e) fuel [it]).1 = [] ∧
      (run_worker now (.failure e) fuel [it]).2.map (·.status)
        = List.replicate (it.max_attempts - it.attempts - 1) .retry ++ [.failed] := by
  intro fuel
  induction fuel with
  | zero => intro it hlt hle; omega
  | succ f ih =>
      intro it hlt hle
      obtain ⟨hatt, hmax, hstat, hreq⟩ :=
        process_notification_failure_fields now e it
      by_cases hagain : it.attempts + 1 < it.max_attempts
      · rw [if_pos hagain] at hstat
        rw [decide_eq_true hagain] at hreq
        have hstep : run_worker now (.failure e) (f + 1) [it]
            = ((run_worker now (.failure e) f
                  [(process_notification now (.failure e) it).1]).1,
               (process_notification now (.failure e) it).1 ::
                 (run_worker now (.failure e) f
                   [(process_notification now (.failure e) it).1]).2) := by
          simp [run_worker, worker_step, hreq]
        rcases ih (process_notification now (.failure e) it).1
            (by omega) (by omega) with ⟨h1, h2⟩
        refine ⟨by rw [hstep]; exact h1, ?_⟩
        rw [hstep, List.map_cons, h2, hstat, hatt, hmax]
        have hcnt : it.max_attempts - it.attempts - 1
            = (it.max_attempts - (it.attempts + 1) - 1) + 1 := by omega
        rw [hcnt, List.replicate_succ]
        rfl
      · rw [if_neg hagain] at hstat
        have hreq' : (process_notification now (.failure e) it).2 = false := by
          rw [hreq]
          exact decide_eq_false hagain
        have hstep : run_worker now (.failure e) (f + 1) [it]
            = ((run_worker now (.failure e) f []).1,
               (process_notification now (.failure e) it).1 ::
                 (run_worker now (.failure e) f []).2) := by
          simp [run_worker, worker_step, hreq']
        rw [hstep, run_worker_nil]
        have hcnt : it.max_attempts - it.attempts - 1 = 0 := by omega
        simp [hcnt, hstat]

/-- Claim C3: a queued item whose webhook delivery always returns failure is
processed pending, then sending, then retry over and over: it ends in retry on
each of its first max_attempts - 1 attempts, lands in terminal failed on the
max_attempts-th attempt, the queue is left empty (a failed item is never put
back), and once the queue is empty the worker makes no further attempts.  A
processing pass whose result is failed never re-queues the item. -/
theorem retry_exhaustion (now : String) (e : Option String) (fuel : Nat)
    (n : QueuedNotification) (hst : n.status = .pending) (ha : n.attempts = 0)
    (hm : 1 ≤ n.max_attempts) (hf : n.max_attempts ≤ fuel) :
    (run_worker now (.failure e) fuel [n]).1 = [] ∧
    (run_worker now (.failure e) fuel [n]).2.map (·.status)
      = List.replicate (n.max_attempts - 1) .retry ++ [.failed] ∧
    (∀ g, run_worker now (.failure e) g [] = ([], [])) ∧
    (∀ m : QueuedNotification,
      (process_notification now (.failure e) m).1.status = .failed →
      (process_notification now (.failure e) m).2 = false) := by
  have h := run_worker_fail_exhausts now e fuel n (by omega) (by omega)
  refine ⟨h.1, by rw [h.2, ha]; simp, run_worker_nil now (.failure e), ?_⟩
  intro m hfail
  by_cases hagain : m.attempts + 1 < m.max_attempts
  · exfalso
    simp [process_notification, markSending, if_pos hagain] at hfail
  · simp [process_notification, markSending, if_neg hagain]

/-- Claim C3 witness: a concrete pending item with max_attempts = 3 under an
always-failing webhook is retried twice and then fails terminally. -/
theorem retry_exhaustion_witness :
    (run_worker "now" (.failure none) 3 [sampleItem]).1 = [] ∧
    (run_worker "now" (.failure none) 3 [sampleItem]).2.map (·.status)
      = List.replicate 2 .retry ++ [.failed] ∧
    (∀ g, run_worker "now" (.failure none) g [] = ([], [])) ∧
    (∀ m : QueuedNotification,
      (process_notification "now" (.failure none) m).1.status = .failed →
      (process_notification "now" (.failure none) m).2 = false) :=
  retry_exhaustion "now" none 3 sampleItem rfl rfl (by decide) (by decide)

/-- Claim C4: the claim is right and the code is wrong.  A concrete item
whose delivery always fails reaches terminal failed on its third attempt, but
because _process_notification never puts a failed item back into self.queue
and _save_queue persists only the items found in self.queue, the
post-processing save writes a document without the failed item; get_queue_status,
which scans that document, therefore reports failed = 0 instead of counting
the parked item. -/
theorem failed_item_dropped_from_persisted_queue :
    (run_worker "now" (.failure none) 3 [sampleItem]).2.map (·.status)
      = [.retry, .retry, .failed] ∧
    save_queue_doc (run_worker "now" (.failure none) 3 [sampleItem]).1
      = { queue := [], total_items := 0 } ∧
    (get_queue_status (save_queue_doc
      (run_worker "now" (.failure none) 3 [sampleItem]).1)).failed = 0 ∧
    load_queue (save_queue_doc
      (run_worker "now" (.failure none) 3 [sampleItem]).1) = [] := by
  refine ⟨rfl, rfl, rfl, rfl⟩

/-- Claim C10: if processing raises an exception instead of the webhook call
returning a failure result, the item goes straight to terminal failed with the
exception text as error_message and is not re-queued, regardless of how many
attempts remain; and no processing pass ever leaves an item in status
sending. -/
theorem exception_goes_straight_to_failed (now msg : String)
    (n : QueuedNotification) :
    process_notification now (.raised msg) n
      = ({ n with
            status := .failed
            attempts := n.attempts + 1
            last_attempt := some now
            error_message := some msg }, false) ∧
    ∀ outcome, (process_notification now outcome n).1.status ≠ .sending := by
  refine ⟨rfl, ?_⟩
  intro outcome
  cases outcome with
  | success => simp [process_notification, markSending]
  | failure err =>
      by_cases hagain : n.attempts + 1 < n.max_attempts
      · simp [process_notification, markSending, if_pos hagain]
      · simp [process_notification, markSending, if_neg hagain]
  | raised msg => simp [process_notification, markSending]

/-- Claim C5 counterexample: the canonical snapshot save with no prior file
writes the target path directly; its trace contains no temporary-file write
and no rename, so the claimed write-temp-then-rename discipline fails. -/
theorem snapshot_write_not_atomic_counterexample :
    ¬ atomicSnapshotWrite (save_main_data_ops false "data/backups/b.json" [])
        main_data_file := by
  intro hca
  exact hca.1 (FsOp.write main_data_file) (by simp [save_main_data_ops]) rfl

/-- Claim C5 amended: every snapshot save (canonical and delta) writes its
document directly to the target path, after an optional backup copy and backup
pruning for the canonical file; the trace never contains a rename, so no
temp-then-rename atomicity is provided. -/
theorem snapshot_write_is_direct (b : Bool) (p : String) (olds : List String) :
    FsOp.write main_data_file ∈ save_main_data_ops b p olds ∧
    (∀ src dst, FsOp.rename src dst ∉ save_main_data_ops b p olds) ∧
    FsOp.write notification_file ∈ save_notifications_ops ∧
    (∀ src dst, FsOp.rename src dst ∉ save_notifications_ops) := by
  refine ⟨?_, ?_, ?_, ?_⟩
  · cases b <;> simp [save_main_data_ops]
  · intro src dst
    cases b <;> simp [save_main_data_ops]
  · simp [save_notifications_ops]
  · intro src dst
    simp [save_notifications_ops]

/-- Claim C6 counterexample: a cycle that finds zero new records (empty batch
against the empty snapshot, with a delta file present from the previous
cycle) removes the delta file but never writes the now-empty delta document
back, contradicting the claim that it is still persisted. -/
theorem empty_delta_not_persisted_counterexample :
    (process_next_scrape_cycle "T" true false "b" [] emptyMainData
      []).1.notification_data.total_new_notifications = 0 ∧
    FsOp.remove notification_file
      ∈ (process_next_scrape_cycle "T" true false "b" [] emptyMainData []).2 ∧
    FsOp.write notification_file
      ∉ (process_next_scrape_cycle "T" true false "b" [] emptyMainData []).2 := by
  refine ⟨rfl, by decide, by decide⟩

/-- Claim C6 amended: the delta file is cleared (deleted, when present) at the
start of every cycle; in a cycle that finds zero new records, the now-empty
delta is NOT persisted as a document — the cycle performs only the clear and
the canonical save, never writing the delta file — and downstream consumers
see the cleared inbox only because the reader substitutes the empty default
for the missing file. -/
theorem empty_delta_cleared_but_not_persisted (now : String)
    (notifExists backupNeeded : Bool) (p : String) (olds : List String)
    (d : MainData) (batch : List RawUpdate)
    (hz : (process_new_scraped_data now d
        batch).notification_data.total_new_notifications = 0) :
    (process_next_scrape_cycle now notifExists backupNeeded p olds d batch).2
      = clear_notifications_ops notifExists
        ++ save_main_data_ops backupNeeded p olds ∧
    (notifExists = true →
      FsOp.remove notification_file
        ∈ (process_next_scrape_cycle now notifExists backupNeeded p olds d
            batch).2) ∧
    FsOp.write notification_file
      ∉ (process_next_scrape_cycle now notifExists backupNeeded p olds d
          batch).2 ∧
    (∀ nd, get_notification_data false nd = emptyNotificationData) := by
  have hops : (process_next_scrape_cycle now notifExists backupNeeded p olds d
      batch).2
      = clear_notifications_ops notifExists
        ++ save_main_data_ops backupNeeded p olds := by
    simp [process_next_scrape_cycle, hz]
  refine ⟨hops, ?_, ?_, fun nd => rfl⟩
  · intro hex
    rw [hops, hex]
    simp [clear_notifications_ops]
  · rw [hops]
    intro hmem
    rcases List.mem_append.mp hmem with hc | hs
    · cases notifExists <;> simp [clear_notifications_ops] at hc
    · cases backupNeeded <;>
        simp [save_main_data_ops, main_data_file, notification_file] at hs


/-- Claim C6 amended witness: concrete cycle (delta file present, empty batch
against the empty snapshot) with zero new records. -/
theorem empty_delta_cleared_but_not_persisted_witness :
    (process_new_scraped_data "T" emptyMainData
        []).notification_data.total_new_notifications = 0 ∧
    ((process_next_scrape_cycle "T" true false "b" [] emptyMainData []).2
        = clear_notifications_ops true ++ save_main_data_ops false "b" [] ∧
      (true = true →
        FsOp.remove notification_file
          ∈ (process_next_scrape_cycle "T" true false "b" [] emptyMainData
              []).2) ∧
      FsOp.write notification_file
        ∉ (process_next_scrape_cycle "T" true false "b" [] emptyMainData
            []).2 ∧
      (∀ nd, get_notification_data false nd = emptyNotificationData)) :=
  ⟨rfl, empty_delta_cleared_but_not_persisted "T" true false "b" []
    emptyMainData [] rfl⟩

/-! ### Category selector toolkit -/

theorem getCat_setCat_self (d : MainData) (c : Category) (l : List Record) :
    getCat (setCat d c l) c = l := by
  cases c <;> rfl

theorem getCat_setCat_ne (d : MainData) {c c' : Category} (l : List Record)
    (h : c' ≠ c) : getCat (setCat d c l) c' = getCat d c' := by
  cases c <;> cases c' <;> first | exact absurd rfl h | rfl

theorem setCat_getCat (d : MainData) (c : Category) :
    setCat d c (getCat d c) = d := by
  cases c <;> rfl

theorem setCat_comm (d : MainData) {c c' : Category} (h : c ≠ c')
    (l l' : List Record) :
    setCat (setCat d c l) c' l' = setCat (setCat d c' l') c l := by
  cases c <;> cases c' <;> first | exact absurd rfl h | rfl

theorem getNCat_setNCat_self (d : NotificationData) (c : Category)
    (l : List Record) : getNCat (setNCat d c l) c = l := by
  cases c <;> rfl

theorem getNCat_setNCat_ne (d : NotificationData) {c c' : Category}
    (l : List Record) (h : c' ≠ c) :
    getNCat (setNCat d c l) c' = getNCat d c' := by
  cases c <;> cases c' <;> first | exact absurd rfl h | rfl

theorem setNCat_getNCat (d : NotificationData) (c : Category) :
    setNCat d c (getNCat d c) = d := by
  cases c <;> rfl

theorem setNCat_comm (d : NotificationData) {c c' : Category} (h : c ≠ c')
    (l l' : List Record) :
    setNCat (setNCat d c l) c' l' = setNCat (setNCat d c' l') c l := by
  cases c <;> cases c' <;> first | exact absurd rfl h | rfl

theorem mem_get_existing_hashes_of_cat {d : MainData} {c : Category}
    {h : String} (hmem : h ∈ hashesOf (getCat d c)) :
    h ∈ get_existing_hashes d := by
  cases c <;> simp [get_existing_hashes, getCat] at hmem ⊢ <;> tauto

theorem getCat_finalizeMain (now : String) (m : MainData) (c : Category) :
    getCat (finalizeMain now m) c = sortRecords (getCat m c) := by
  cases c <;> rfl

theorem getNCat_finalizeNotif (now : String) (n : NotificationData)
    (c : Category) :
    getNCat (finalizeNotif now n) c = sortRecords (getNCat n c) := by
  cases c <;> rfl

/-! ### replaceFirstByHash toolkit -/

theorem replaceFirst_hashesOf {la : List Record} {h : String} {r : Record}
    (hr : r.content_hash = h) :
    hashesOf (replaceFirstByHash la h r).1 = hashesOf la := by
  induction la with
  | nil => rfl
  | cons x xs ih =>
      by_cases hx : x.content_hash = h
      · simp [replaceFirstByHash, hx, hashesOf, hr]
      · simp [replaceFirstByHash, hx, hashesOf] at ih ⊢
        exact ih

theorem replaceFirst_not_found {la : List Record} {h : String} {r : Record}
    (hn : ∀ x ∈ la, x.content_hash ≠ h) :
    replaceFirstByHash la h r = (la, false) := by
  induction la with
  | nil => rfl
  | cons x xs ih =>
      have hx : ¬ x.content_hash = h := hn x (by simp)
      have ihx := ih (fun y hy => hn y (by simp [hy]))
      simp [replaceFirstByHash, hx, ihx]

theorem replaceFirst_found_iff {la : List Record} {h : String} {r : Record} :
    (replaceFirstByHash la h r).2 = true ↔ h ∈ hashesOf la := by
  induction la with
  | nil => simp [replaceFirstByHash, hashesOf]
  | cons x xs ih =>
      by_cases hx : x.content_hash = h
      · simp [replaceFirstByHash, hx, hashesOf]
      · simp [replaceFirstByHash, hx, hashesOf] at ih ⊢
        rw [ih]
        constructor
        · exact Or.inr
        · rintro (he | hm)
          · exact absurd he.symm hx
          · exact hm

theorem replaceFirst_length (la : List Record) (h : String) (r : Record) :
    (replaceFirstByHash la h r).1.length = la.length := by
  induction la with
  | nil => rfl
  | cons x xs ih =>
      by_cases hx : x.content_hash = h <;>
        simp [replaceFirstByHash, hx, ih]

theorem replaceFirst_mem {la : List Record} {h : String} {r x : Record}
    (hx : x ∈ (replaceFirstByHash la h r).1) : x ∈ la ∨ x = r := by
  induction la with
  | nil => simp [replaceFirstByHash] at hx
  | cons y ys ih =>
      by_cases hy : y.content_hash = h
      · simp [replaceFirstByHash, hy] at hx
        rcases hx with hx | hx
        · exact Or.inr hx
        · exact Or.inl (by simp [hx])
      · simp [replaceFirstByHash, hy] at hx
        rcases hx with hx | hx
        · exact Or.inl (by simp [hx])
        · rcases ih hx with hm | hm
          · exact Or.inl (by simp [hm])
          · exact Or.inr hm

theorem replaceFirst_append_last {la : List Record} {h : String} {r x : Record}
    (hx : x.content_hash ≠ h) :
    replaceFirstByHash (la ++ [x]) h r
      = ((replaceFirstByHash la h r).1 ++ [x], (replaceFirstByHash la h r).2) := by
  induction la with
  | nil => simp [replaceFirstByHash, hx]
  | cons y ys ih =>
      by_cases hy : y.content_hash = h <;>
        simp [replaceFirstByHash, hy, ih]

theorem replaceFirst_comm {la : List Record} {h₁ h₂ : String} {r₁ r₂ : Record}
    (hne : h₁ ≠ h₂) (hr₁ : r₁.content_hash = h₁) (hr₂ : r₂.content_hash = h₂) :
    (replaceFirstByHash (replaceFirstByHash la h₁ r₁).1 h₂ r₂).1
      = (replaceFirstByHash (replaceFirstByHash la h₂ r₂).1 h₁ r₁).1 := by
  induction la with
  | nil => rfl
  | cons x xs ih =>
      by_cases hx1 : x.content_hash = h₁
      · have hx2 : ¬ x.content_hash = h₂ := by rw [hx1]; exact hne
        have hr12 : ¬ r₁.content_hash = h₂ := by rw [hr₁]; exact hne
        simp [replaceFirstByHash, hx1, hx2, hr12, hne]
      · by_cases hx2 : x.content_hash = h₂
        · have hr21 : ¬ r₂.content_hash = h₁ := by
            rw [hr₂]; exact fun he => hne he.symm
          have hne2 : ¬ (h₂ = h₁) := fun he => hne he.symm
          simp [replaceFirstByHash, hx1, hx2, hr21, hne2]
        · simp [replaceFirstByHash, hx1, hx2, ih]


/-- A record with an empty (or missing) content hash is skipped by the
processing loop. -/
theorem processUpdate_skip {s : ReconcileState} {u : RawUpdate}
    (h : rawHash u = "") : processUpdate s u = s := by
  simp [processUpdate, h]

theorem process_main_getCat (now : String) (d : MainData)
    (batch : List RawUpdate) (c : Category) :
    getCat (process_new_scraped_data now d batch).main_data c
      = sortRecords (getCat (batch.foldl processUpdate (initState now d)).main c) := by
  cases c <;> rfl

theorem process_notif_getNCat (now : String) (d : MainData)
    (batch : List RawUpdate) (c : Category) :
    getNCat (process_new_scraped_data now d batch).notification_data c
      = sortRecords (getNCat (batch.foldl processUpdate (initState now d)).notif c) := by
  cases c <;> rfl

theorem process_new_items (now : String) (d : MainData)
    (batch : List RawUpdate) :
    (process_new_scraped_data now d batch).stats.new_items
      = (batch.foldl processUpdate (initState now d)).newCount := rfl

theorem process_updated_items (now : String) (d : MainData)
    (batch : List RawUpdate) :
    (process_new_scraped_data now d batch).stats.updated_items
      = (batch.foldl processUpdate (initState now d)).updCount := rfl

/-- Claim C7 counterexample: a raw record with a missing title but a fresh
non-empty content hash is NOT dropped by the Reconciler: it is appended (with
an empty title) to both the canonical and the delta snapshot and counted as a
new item. -/
theorem missing_title_not_dropped_counterexample :
    noTitleUpdate.title = none ∧ rawHash noTitleUpdate ≠ "" ∧
    (process_new_scraped_data "T" emptyMainData [noTitleUpdate]).main_data.jee
      = [format_update noTitleUpdate] ∧
    (process_new_scraped_data "T" emptyMainData
      [noTitleUpdate]).notification_data.jee = [format_update noTitleUpdate] ∧
    (process_new_scraped_data "T" emptyMainData [noTitleUpdate]).stats.new_items
      = 1 := by
  refine ⟨rfl, by decide, rfl, rfl, rfl⟩

/-- Claim C7 amended: the per-record skip of the Reconciler is keyed on the
content hash, not the title: a record with an empty or missing content_hash is
dropped (it affects neither snapshot, no counter, and the rest of the batch is
processed exactly as if the record were absent), while any record with a fresh
non-empty hash - whatever its title, including a missing one - is appended to
its category. -/
theorem empty_hash_dropped_without_aborting (now : String) (d : MainData)
    (pre post : List RawUpdate) (u : RawUpdate) (h : rawHash u = "") :
    process_new_scraped_data now d (pre ++ u :: post)
      = process_new_scraped_data now d (pre ++ post) ∧
    (∀ (s : ReconcileState) (v : RawUpdate), rawHash v ≠ "" →
      rawHash v ∉ s.hashes →
      getCat (processUpdate s v).main (determine_category v)
        = getCat s.main (determine_category v) ++ [format_update v]) := by
  constructor
  · have hfold : ∀ s : ReconcileState,
        (pre ++ u :: post).foldl processUpdate s
          = (pre ++ post).foldl processUpdate s := by
      intro s
      rw [List.foldl_append, List.foldl_append, List.foldl_cons,
        processUpdate_skip h]
    simp [process_new_scraped_data, hfold]
  · intro s v hv hnot
    simp [processUpdate, hv, hnot, getCat_setCat_self]

/-- Claim C7 amended witness: dropping the all-empty record from the front of
a batch leaves the result unchanged, and a fresh hashed record is appended. -/
theorem empty_hash_dropped_without_aborting_witness :
    process_new_scraped_data "T" emptyMainData
        ([] ++ emptyRawUpdate :: [noTitleUpdate])
      = process_new_scraped_data "T" emptyMainData ([] ++ [noTitleUpdate]) ∧
    (∀ (s : ReconcileState) (v : RawUpdate), rawHash v ≠ "" →
      rawHash v ∉ s.hashes →
      getCat (processUpdate s v).main (determine_category v)
        = getCat s.main (determine_category v) ++ [format_update v]) :=
  empty_hash_dropped_without_aborting "T" emptyMainData [] [noTitleUpdate]
    emptyRawUpdate rfl

/-- Claim C9: an incoming record whose hash is already known to the snapshot
but whose stored copy lives in a category other than the one the classifier
assigns leaves every category list of the canonical snapshot unchanged (the
incoming field changes are lost), increments neither counter, and produces an
empty delta. -/
theorem cross_category_update_is_noop (now : String) (d : MainData)
    (u : RawUpdate) (hsorted : ∀ c, List.Sorted sortRel (getCat d c))
    (hch : rawHash u ≠ "")
    (hknown : rawHash u ∈ get_existing_hashes d)
    (hnone : ∀ r ∈ getCat d (determine_category u),
      r.content_hash ≠ rawHash u) :
    (∀ c, getCat (process_new_scraped_data now d [u]).main_data c
      = getCat d c) ∧
    (process_new_scraped_data now d [u]).stats.updated_items = 0 ∧
    (process_new_scraped_data now d [u]).stats.new_items = 0 ∧
    (∀ c, getNCat (process_new_scraped_data now d [u]).notification_data c
      = []) := by
  have hrf : replaceFirstByHash (getCat d (determine_category u))
      (rawHash u) (format_update u)
      = (getCat d (determine_category u), false) :=
    replaceFirst_not_found hnone
  have hfold : [u].foldl processUpdate (initState now d) = initState now d := by
    have hmem : rawHash u ∈ (initState now d).hashes := hknown
    simp only [List.foldl_cons, List.foldl_nil]
    simp [processUpdate, hch, initState, hknown, hrf, setCat_getCat]
  refine ⟨?_, ?_, ?_, ?_⟩
  · intro c
    rw [process_main_getCat, hfold]
    exact List.Sorted.insertionSort_eq (hsorted c)
  · rw [process_updated_items, hfold]
    rfl
  · rw [process_new_items, hfold]
    rfl
  · intro c
    rw [process_notif_getNCat, hfold]
    cases c <;> rfl

/-- Claim C9 witness: a snapshot holding hash h1 under gate, fed an update
with hash h1 that classifies as jee, is returned unchanged. -/
theorem cross_category_update_is_noop_witness :
    (∀ c, getCat (process_new_scraped_data "T" sampleSnapshot
        [sampleCrossUpdate]).main_data c = getCat sampleSnapshot c) ∧
    (process_new_scraped_data "T" sampleSnapshot
      [sampleCrossUpdate]).stats.updated_items = 0 ∧
    (process_new_scraped_data "T" sampleSnapshot
      [sampleCrossUpdate]).stats.new_items = 0 ∧
    (∀ c, getNCat (process_new_scraped_data "T" sampleSnapshot
        [sampleCrossUpdate]).notification_data c = []) :=
  cross_category_update_is_noop "T" sampleSnapshot sampleCrossUpdate
    (by intro c
        cases c <;>
          simp [sampleSnapshot, emptyMainData, getCat])
    (by decide) (by decide) (by decide)


/-! ### Dedup invariant (C1) -/

/-- Appending one record to a category turns the snapshot's hash list into a
permutation of the new hash consed onto the old hash list. -/
theorem get_existing_hashes_set_append (d : MainData) (c : Category)
    (f : Record) :
    List.Perm (get_existing_hashes (setCat d c (getCat d c ++ [f])))
      (f.content_hash :: get_existing_hashes d) := by
  cases c <;> simp [get_existing_hashes, setCat, getCat, hashesOf]
  · exact (List.Perm.append_left _ List.perm_middle).trans List.perm_middle
  · exact (List.Perm.append_left _
      ((List.Perm.append_left _ List.perm_middle).trans
        List.perm_middle)).trans List.perm_middle
  · exact (List.Perm.append_left _
      ((List.Perm.append_left _
        ((List.Perm.append_left _ (List.perm_append_singleton _ _)).trans
          List.perm_middle)).trans List.perm_middle)).trans List.perm_middle

/-- Replacing a record by another with the same hash leaves the snapshot's
hash list unchanged. -/
theorem get_existing_hashes_set_replace (d : MainData) (c : Category)
    {hsh : String} {f : Record} (hf : f.content_hash = hsh) :
    get_existing_hashes
        (setCat d c (replaceFirstByHash (getCat d c) hsh f).1)
      = get_existing_hashes d := by
  cases c <;>
    simp [get_existing_hashes, setCat, getCat] <;>
    rw [replaceFirst_hashesOf hf]

/-- One loop iteration preserves distinctness of the snapshot's hashes
together with their containment in the running known-hash set. -/
theorem processUpdate_dedup {s : ReconcileState} (u : RawUpdate)
    (hnd : (get_existing_hashes s.main).Nodup)
    (hsub : ∀ h ∈ get_existing_hashes s.main, h ∈ s.hashes) :
    (get_existing_hashes (processUpdate s u).main).Nodup ∧
    ∀ h ∈ get_existing_hashes (processUpdate s u).main,
      h ∈ (processUpdate s u).hashes := by
  by_cases h0 : rawHash u = ""
  · rw [processUpdate_skip h0]
    exact ⟨hnd, hsub⟩
  by_cases hmem : rawHash u ∈ s.hashes
  · have hm : (processUpdate s u).main
        = setCat s.main (determine_category u)
            (replaceFirstByHash (getCat s.main (determine_category u))
              (rawHash u) (format_update u)).1 := by
      simp [processUpdate, h0, hmem]
    have hh : (processUpdate s u).hashes = s.hashes := by
      simp [processUpdate, h0, hmem]
    have hfu : (format_update u).content_hash = rawHash u := rfl
    rw [hm, hh, get_existing_hashes_set_replace _ _ hfu]
    exact ⟨hnd, hsub⟩
  · have hm : (processUpdate s u).main
        = setCat s.main (determine_category u)
            (getCat s.main (determine_category u) ++ [format_update u]) := by
      simp [processUpdate, h0, hmem]
    have hh : (processUpdate s u).hashes = s.hashes ++ [rawHash u] := by
      simp [processUpdate, h0, hmem]
    have hfresh : rawHash u ∉ get_existing_hashes s.main :=
      fun hin => hmem (hsub _ hin)
    have hperm := get_existing_hashes_set_append s.main
      (determine_category u) (format_update u)
    have hfu : (format_update u).content_hash = rawHash u := rfl
    rw [hfu] at hperm
    constructor
    · rw [hm]
      exact hperm.nodup_iff.mpr (List.nodup_cons.mpr ⟨hfresh, hnd⟩)
    · intro h hin
      rw [hm] at hin
      have hin2 := hperm.mem_iff.mp hin
      rw [hh]
      rcases List.mem_cons.mp hin2 with he | hold
      · simp [he]
      · simp [hsub h hold]

/-- The whole processing loop preserves the dedup invariant. -/
theorem foldl_processUpdate_dedup (batch : List RawUpdate) :
    ∀ s : ReconcileState, (get_existing_hashes s.main).Nodup →
      (∀ h ∈ get_existing_hashes s.main, h ∈ s.hashes) →
      (get_existing_hashes (batch.foldl processUpdate s).main).Nodup ∧
      ∀ h ∈ get_existing_hashes (batch.foldl processUpdate s).main,
        h ∈ (batch.foldl processUpdate s).hashes := by
  induction batch with
  | nil => intro s hnd hsub; exact ⟨hnd, hsub⟩
  | cons u rest ih =>
      intro s hnd hsub
      obtain ⟨hnd', hsub'⟩ := processUpdate_dedup u hnd hsub
      simpa using ih (processUpdate s u) hnd' hsub'

/-- Sorting the category lists permutes the snapshot's hash list. -/
theorem get_existing_hashes_finalizeMain (now : String) (m : MainData) :
    List.Perm (get_existing_hashes (finalizeMain now m))
      (get_existing_hashes m) := by
  simp only [get_existing_hashes, finalizeMain, hashesOf, sortRecords]
  exact List.Perm.append
    (List.Perm.append
      (List.Perm.append
        ((List.perm_insertionSort sortRel m.jee).map _)
        ((List.perm_insertionSort sortRel m.gate).map _))
      ((List.perm_insertionSort sortRel m.jee_adv).map _))
    ((List.perm_insertionSort sortRel m.upsc).map _)

/-- One reconciliation run preserves distinctness of the snapshot's hashes. -/
theorem process_preserves_dedup (now : String) (d : MainData)
    (batch : List RawUpdate) (hnd : (get_existing_hashes d).Nodup) :
    (get_existing_hashes
      (process_new_scraped_data now d batch).main_data).Nodup := by
  have hinit : ∀ h ∈ get_existing_hashes d, h ∈ (initState now d).hashes :=
    fun h hh => hh
  obtain ⟨hnd', _⟩ := foldl_processUpdate_dedup batch (initState now d) hnd hinit
  have hperm := get_existing_hashes_finalizeMain now
    (batch.foldl processUpdate (initState now d)).main
  exact hperm.nodup_iff.mpr hnd'

/-- On an already-known hash the loop never appends: every category list keeps
its length, the matching record being replaced in place. -/
theorem processUpdate_known_keeps_length {s : ReconcileState} {u : RawUpdate}
    (h0 : rawHash u ≠ "") (hmem : rawHash u ∈ s.hashes) (c : Category) :
    (getCat (processUpdate s u).main c).length = (getCat s.main c).length := by
  have hm : (processUpdate s u).main
      = setCat s.main (determine_category u)
          (replaceFirstByHash (getCat s.main (determine_category u))
            (rawHash u) (format_update u)).1 := by
    simp [processUpdate, h0, hmem]
  rw [hm]
  by_cases hc : c = determine_category u
  · subst hc
    rw [getCat_setCat_self, replaceFirst_length]
  · rw [getCat_setCat_ne _ _ hc]

/-- Claim C1: starting from a canonical snapshot with pairwise-distinct
content hashes, any sequence of reconciliation cycles keeps all content
hashes of the canonical snapshot pairwise distinct, within and across
categories; moreover a record whose hash is already known is never appended
(every category list keeps its length at that loop step, the stored record
being replaced in place). -/
theorem dedup_invariant (now : String) (d : MainData)
    (batches : List (List RawUpdate))
    (hnd : (get_existing_hashes d).Nodup) :
    (get_existing_hashes
      (batches.foldl
        (fun m b => (process_new_scraped_data now m b).main_data) d)).Nodup ∧
    ∀ (s : ReconcileState) (u : RawUpdate), rawHash u ≠ "" →
      rawHash u ∈ s.hashes → ∀ c,
      (getCat (processUpdate s u).main c).length = (getCat s.main c).length := by
  constructor
  · induction batches generalizing d with
    | nil => exact hnd
    | cons b rest ih =>
        simpa using ih (process_new_scraped_data now d b).main_data
          (process_preserves_dedup now d b hnd)
  · intro s u h0 hmem c
    exact processUpdate_known_keeps_length h0 hmem c

/-- Claim C1 witness: two cycles over concrete batches starting from the
empty snapshot keep the hash list duplicate-free. -/
theorem dedup_invariant_witness :
    (get_existing_hashes
      ([[noTitleUpdate], [noTitleUpdate, sampleCrossUpdate]].foldl
        (fun m b => (process_new_scraped_data "T" m b).main_data)
        emptyMainData)).Nodup ∧
    ∀ (s : ReconcileState) (u : RawUpdate), rawHash u ≠ "" →
      rawHash u ∈ s.hashes → ∀ c,
      (getCat (processUpdate s u).main c).length = (getCat s.main c).length :=
  dedup_invariant "T" emptyMainData [[noTitleUpdate], [noTitleUpdate, sampleCrossUpdate]]
    (by decide)


/-! ### Idempotent re-ingest (C2) -/

/-- Step characterization on a fresh non-empty hash (the new-item branch). -/
theorem processUpdate_fresh {s : ReconcileState} {u : RawUpdate}
    (h0 : rawHash u ≠ "") (hf : rawHash u ∉ s.hashes) :
    (processUpdate s u).main
      = setCat s.main (determine_category u)
          (getCat s.main (determine_category u) ++ [format_update u]) ∧
    (processUpdate s u).hashes = s.hashes ++ [rawHash u] ∧
    (processUpdate s u).newCount = s.newCount + 1 ∧
    (processUpdate s u).updCount = s.updCount ∧
    (processUpdate s u).notif
      = setNCat s.notif (determine_category u)
          (getNCat s.notif (determine_category u) ++ [format_update u]) := by
  refine ⟨?_, ?_, ?_, ?_, ?_⟩ <;> simp [processUpdate, h0, hf]

/-- Step characterization on an already-known hash (the update branch). -/
theorem processUpdate_known {s : ReconcileState} {u : RawUpdate}
    (h0 : rawHash u ≠ "") (hk : rawHash u ∈ s.hashes) :
    (processUpdate s u).main
      = setCat s.main (determine_category u)
          (replaceFirstByHash (getCat s.main (determine_category u))
            (rawHash u) (format_update u)).1 ∧
    (processUpdate s u).hashes = s.hashes ∧
    (processUpdate s u).newCount = s.newCount ∧
    (processUpdate s u).updCount = s.updCount +
      (if (replaceFirstByHash (getCat s.main (determine_category u))
            (rawHash u) (format_update u)).2 then 1 else 0) ∧
    (processUpdate s u).notif = s.notif := by
  refine ⟨?_, ?_, ?_, ?_, ?_⟩ <;> simp [processUpdate, h0, hk]

/-- A batch of records with pairwise-distinct, non-empty hashes, all unknown
to the running state, takes the new-item branch throughout: the new counter
grows by the batch length, the update counter is untouched, every category
list only receives appends, and each record lands in its assigned category. -/
theorem foldl_processUpdate_fresh (batch : List RawUpdate) :
    ∀ s : ReconcileState,
      (∀ u ∈ batch, rawHash u ≠ "") →
      (batch.map rawHash).Nodup →
      (∀ u ∈ batch, rawHash u ∉ s.hashes) →
      (batch.foldl processUpdate s).newCount = s.newCount + batch.length ∧
      (batch.foldl processUpdate s).updCount = s.updCount ∧
      (∀ c, ∃ app, getCat (batch.foldl processUpdate s).main c
        = getCat s.main c ++ app) ∧
      (∀ u ∈ batch, format_update u
        ∈ getCat (batch.foldl processUpdate s).main (determine_category u)) := by
  induction batch with
  | nil =>
      intro s _ _ _
      exact ⟨rfl, rfl, fun c => ⟨[], by simp⟩, by simp⟩
  | cons v rest ih =>
      intro s hne hnd hfresh
      have hv : rawHash v ≠ "" := hne v (by simp)
      have hvf : rawHash v ∉ s.hashes := hfresh v (by simp)
      obtain ⟨hm, hh, hn, hu, _⟩ := processUpdate_fresh hv hvf
      have hnd0 : rawHash v ∉ rest.map rawHash ∧ (rest.map rawHash).Nodup := by
        simpa [List.nodup_cons] using hnd
      have hfresh' : ∀ u ∈ rest, rawHash u ∉ (processUpdate s v).hashes := by
        intro u hu'
        rw [hh]
        simp only [List.mem_append, List.mem_singleton]
        rintro (hin | he)
        · exact hfresh u (by simp [hu']) hin
        · exact hnd0.1 (he ▸ List.mem_map_of_mem rawHash hu')
      obtain ⟨ihnew, ihupd, ihapp, ihmem⟩ :=
        ih (processUpdate s v) (fun u hu' => hne u (by simp [hu'])) hnd0.2 hfresh'
      refine ⟨?_, ?_, ?_, ?_⟩
      · simp only [List.foldl_cons, List.length_cons]
        rw [ihnew, hn]
        omega
      · simp only [List.foldl_cons]
        rw [ihupd, hu]
      · intro c
        obtain ⟨app, happ⟩ := ihapp c
        simp only [List.foldl_cons]
        rw [happ, hm]
        by_cases hc : c = determine_category v
        · subst hc
          rw [getCat_setCat_self]
          exact ⟨[format_update v] ++ app, by simp⟩
        · rw [getCat_setCat_ne _ _ hc]
          exact ⟨app, rfl⟩
      · intro u hu'
        simp only [List.foldl_cons]
        rcases List.mem_cons.mp hu' with rfl | hrest
        · obtain ⟨app, happ⟩ := ihapp (determine_category u)
          rw [happ, hm, getCat_setCat_self]
          simp
        · exact ihmem u hrest

/-- A batch of records with non-empty hashes that are all already known, each
present in the hash list of its assigned category, takes the update branch
throughout: every record is found and replaced, so the update counter grows by
the batch length, the new counter is untouched, and every category keeps its
hash list (hence its length). -/
theorem foldl_processUpdate_known (batch : List RawUpdate) :
    ∀ s : ReconcileState,
      (∀ u ∈ batch, rawHash u ≠ "") →
      (∀ u ∈ batch, rawHash u ∈ s.hashes) →
      (∀ u ∈ batch, rawHash u
        ∈ hashesOf (getCat s.main (determine_category u))) →
      (batch.foldl processUpdate s).newCount = s.newCount ∧
      (batch.foldl processUpdate s).updCount = s.updCount + batch.length ∧
      (∀ c, hashesOf (getCat (batch.foldl processUpdate s).main c)
        = hashesOf (getCat s.main c)) ∧
      (batch.foldl processUpdate s).hashes = s.hashes := by
  induction batch with
  | nil => intro s _ _ _; exact ⟨rfl, rfl, fun c => rfl, rfl⟩
  | cons v rest ih =>
      intro s hne hknown hincat
      have hv : rawHash v ≠ "" := hne v (by simp)
      have hvk : rawHash v ∈ s.hashes := hknown v (by simp)
      obtain ⟨hm, hh, hn, hu, _⟩ := processUpdate_known hv hvk
      have hfound : (replaceFirstByHash
          (getCat s.main (determine_category v)) (rawHash v)
          (format_update v)).2 = true :=
        replaceFirst_found_iff.mpr (hincat v (by simp))
      have hcat : ∀ c, hashesOf (getCat (processUpdate s v).main c)
          = hashesOf (getCat s.main c) := by
        intro c
        rw [hm]
        by_cases hc : c = determine_category v
        · subst hc
          rw [getCat_setCat_self]
          exact replaceFirst_hashesOf rfl
        · rw [getCat_setCat_ne _ _ hc]
      obtain ⟨ihnew, ihupd, ihcat, ihh⟩ := ih (processUpdate s v)
        (fun u hu' => hne u (by simp [hu']))
        (fun u hu' => hh ▸ hknown u (by simp [hu']))
        (fun u hu' => (hcat (determine_category u)).symm ▸
          hincat u (by simp [hu']))
      refine ⟨?_, ?_, ?_, ?_⟩
      · simp only [List.foldl_cons]
        rw [ihnew, hn]
      · simp only [List.foldl_cons, List.length_cons]
        rw [ihupd, hu, hfound]
        simp
        omega
      · intro c
        simp only [List.foldl_cons]
        rw [ihcat c, hcat c]
      · simp only [List.foldl_cons]
        rw [ihh, hh]

/-- The recomputed canonical total is the sum of the (unsorted) category list
lengths. -/
theorem finalizeMain_total (now : String) (m : MainData) :
    (finalizeMain now m).total_notification
      = m.jee.length + m.gate.length + m.jee_adv.length + m.upsc.length := by
  simp [finalizeMain, sortRecords, List.length_insertionSort]

/-- Claim C2: a batch of N records with non-empty, pairwise-distinct hashes
none of which occur in the snapshot yields new_items = N, updated_items = 0 on
the first run; re-running the identical batch against the resulting snapshot
yields new_items = 0, updated_items = N; and the canonical total_notification
is unchanged by the second run. -/
theorem idempotent_reingest (now now2 : String) (d : MainData)
    (batch : List RawUpdate)
    (hne : ∀ u ∈ batch, rawHash u ≠ "")
    (hnd : (batch.map rawHash).Nodup)
    (hfresh : ∀ u ∈ batch, rawHash u ∉ get_existing_hashes d) :
    (process_new_scraped_data now d batch).stats.new_items = batch.length ∧
    (process_new_scraped_data now d batch).stats.updated_items = 0 ∧
    (process_new_scraped_data now2
      (process_new_scraped_data now d batch).main_data batch).stats.new_items
      = 0 ∧
    (process_new_scraped_data now2
      (process_new_scraped_data now d batch).main_data
      batch).stats.updated_items = batch.length ∧
    (process_new_scraped_data now2
      (process_new_scraped_data now d batch).main_data
      batch).main_data.total_notification
      = (process_new_scraped_data now d batch).main_data.total_notification := by
  obtain ⟨r1new, r1upd, r1app, r1mem⟩ :=
    foldl_processUpdate_fresh batch (initState now d) hne hnd hfresh
  have hmd1cat : ∀ u ∈ batch, rawHash u
      ∈ hashesOf (getCat (process_new_scraped_data now d batch).main_data
        (determine_category u)) := by
    intro u hu
    rw [process_main_getCat]
    have hmem := r1mem u hu
    have : format_update u ∈ sortRecords
        (getCat (batch.foldl processUpdate (initState now d)).main
          (determine_category u)) := by
      simpa [sortRecords] using hmem
    exact List.mem_map_of_mem (·.content_hash) this
  have hmd1known : ∀ u ∈ batch, rawHash u
      ∈ get_existing_hashes
        ((process_new_scraped_data now d batch).main_data) := by
    intro u hu
    exact mem_get_existing_hashes_of_cat (hmd1cat u hu)
  obtain ⟨r2new, r2upd, r2cat, r2h⟩ :=
    foldl_processUpdate_known batch
      (initState now2 (process_new_scraped_data now d batch).main_data)
      hne hmd1known hmd1cat
  have hlen : ∀ c,
      (getCat (batch.foldl processUpdate
        (initState now2
          (process_new_scraped_data now d batch).main_data)).main c).length
      = (getCat (process_new_scraped_data now d batch).main_data c).length := by
    intro c
    have := congrArg List.length (r2cat c)
    simpa [hashesOf] using this
  refine ⟨?_, ?_, ?_, ?_, ?_⟩
  · rw [process_new_items, r1new]
    simp [initState]
  · rw [process_updated_items, r1upd]
    simp [initState]
  · rw [process_new_items, r2new]
    simp [initState]
  · rw [process_updated_items, r2upd]
    simp [initState]
  · show (finalizeMain now2 _).total_notification
      = (process_new_scraped_data now d batch).main_data.total_notification
    rw [finalizeMain_total]
    have hj := hlen .jee
    have hg := hlen .gate
    have hv := hlen .jee_adv
    have hu := hlen .upsc
    simp only [getCat] at hj hg hv hu
    rw [hj, hg, hv, hu]
    have : (process_new_scraped_data now d batch).main_data.total_notification
        = (process_new_scraped_data now d batch).main_data.jee.length +
          (process_new_scraped_data now d batch).main_data.gate.length +
          (process_new_scraped_data now d batch).main_data.jee_adv.length +
          (process_new_scraped_data now d batch).main_data.upsc.length := by
      show (finalizeMain now _).total_notification = _
      rw [finalizeMain_total]
      simp [process_new_scraped_data, finalizeMain, sortRecords,
        List.length_insertionSort]
    rw [this]

/-- Claim C2 witness: a concrete two-record batch against the empty snapshot:
first run (2, 0), second run (0, 2), total unchanged. -/
theorem idempotent_reingest_witness :
    (process_new_scraped_data "T" emptyMainData
      [noTitleUpdate, sampleCrossUpdate]).stats.new_items = 2 ∧
    (process_new_scraped_data "T" emptyMainData
      [noTitleUpdate, sampleCrossUpdate]).stats.updated_items = 0 ∧
    (process_new_scraped_data "U"
      (process_new_scraped_data "T" emptyMainData
        [noTitleUpdate, sampleCrossUpdate]).main_data
      [noTitleUpdate, sampleCrossUpdate]).stats.new_items = 0 ∧
    (process_new_scraped_data "U"
      (process_new_scraped_data "T" emptyMainData
        [noTitleUpdate, sampleCrossUpdate]).main_data
      [noTitleUpdate, sampleCrossUpdate]).stats.updated_items = 2 ∧
    (process_new_scraped_data "U"
      (process_new_scraped_data "T" emptyMainData
        [noTitleUpdate, sampleCrossUpdate]).main_data
      [noTitleUpdate, sampleCrossUpdate]).main_data.total_notification
      = (process_new_scraped_data "T" emptyMainData
        [noTitleUpdate, sampleCrossUpdate]).main_data.total_notification :=
  idempotent_reingest "T" "U" emptyMainData [noTitleUpdate, sampleCrossUpdate]
    (by decide) (by decide) (by decide)


/-! ### Order independence (C8) -/

/-- Claim C8 counterexample: two new records with the same scraped_at but
different hashes land in jee in arrival order, and the stable sort keeps the
tie in that order: the two permutations of the batch give differently ordered
final jee lists. -/
theorem order_dependent_counterexample :
    List.Perm [tieUpdateA, tieUpdateB] [tieUpdateB, tieUpdateA] ∧
    (process_new_scraped_data "T" emptyMainData
        [tieUpdateA, tieUpdateB]).main_data.jee
      ≠ (process_new_scraped_data "T" emptyMainData
        [tieUpdateB, tieUpdateA]).main_data.jee := by
  constructor
  · exact List.Perm.swap tieUpdateB tieUpdateA []
  · decide

theorem stateEquiv_refl (s : ReconcileState) : StateEquiv s s :=
  ⟨fun _ => List.Perm.refl _, fun _ => List.Perm.refl _, fun _ => Iff.rfl,
    rfl, rfl⟩

theorem stateEquiv_symm {s₁ s₂ : ReconcileState} (h : StateEquiv s₁ s₂) :
    StateEquiv s₂ s₁ :=
  ⟨fun c => (h.1 c).symm, fun c => (h.2.1 c).symm,
    fun a => (h.2.2.1 a).symm, h.2.2.2.1.symm, h.2.2.2.2.symm⟩

theorem stateEquiv_trans {s₁ s₂ s₃ : ReconcileState} (h : StateEquiv s₁ s₂)
    (h' : StateEquiv s₂ s₃) : StateEquiv s₁ s₃ :=
  ⟨fun c => (h.1 c).trans (h'.1 c), fun c => (h.2.1 c).trans (h'.2.1 c),
    fun a => (h.2.2.1 a).trans (h'.2.2.1 a),
    h.2.2.2.1.trans h'.2.2.2.1, h.2.2.2.2.trans h'.2.2.2.2⟩

/-- Permutations of record lists induce permutations of their hash lists. -/
theorem hashesOf_perm {l₁ l₂ : List Record} (hp : List.Perm l₁ l₂) :
    List.Perm (hashesOf l₁) (hashesOf l₂) :=
  hp.map _

/-- The invariant transfers across equivalent states. -/
theorem catInv_of_equiv {s₁ s₂ : ReconcileState} (he : StateEquiv s₁ s₂)
    (hi : CatInv s₁) : CatInv s₂ := by
  intro c
  obtain ⟨⟨hmnd, hmsub⟩, ⟨hnnd, hnsub⟩⟩ := hi c
  have hpm := hashesOf_perm (he.1 c)
  have hpn := hashesOf_perm (he.2.1 c)
  refine ⟨⟨hpm.nodup_iff.mp hmnd, ?_⟩, ⟨hpn.nodup_iff.mp hnnd, ?_⟩⟩
  · intro h hh
    exact (he.2.2.1 h).mp (hmsub h (hpm.mem_iff.mpr hh))
  · intro h hh
    exact (he.2.2.1 h).mp (hnsub h (hpn.mem_iff.mpr hh))

/-- The replacement flag only depends on the hashes present in the list. -/
theorem replaceFirst_found_perm {l₁ l₂ : List Record} {hsh : String}
    {r : Record} (hp : List.Perm l₁ l₂) :
    (replaceFirstByHash l₁ hsh r).2 = (replaceFirstByHash l₂ hsh r).2 := by
  by_cases hm : hsh ∈ hashesOf l₁
  · rw [replaceFirst_found_iff.mpr hm,
      replaceFirst_found_iff.mpr ((hashesOf_perm hp).mem_iff.mp hm)]
  · have hm₂ : hsh ∉ hashesOf l₂ :=
      fun hh => hm ((hashesOf_perm hp).mem_iff.mpr hh)
    have h1 : (replaceFirstByHash l₁ hsh r).2 = false := by
      cases hb : (replaceFirstByHash l₁ hsh r).2 with
      | false => rfl
      | true => exact absurd (replaceFirst_found_iff.mp hb) hm
    have h2 : (replaceFirstByHash l₂ hsh r).2 = false := by
      cases hb : (replaceFirstByHash l₂ hsh r).2 with
      | false => rfl
      | true => exact absurd (replaceFirst_found_iff.mp hb) hm₂
    rw [h1, h2]

/-- The hash list of a record list cons-decomposes. -/
theorem hashesOf_cons (x : Record) (l : List Record) :
    hashesOf (x :: l) = x.content_hash :: hashesOf l := rfl

/-- On lists with duplicate-free hashes, replacement respects permutation. -/
theorem replaceFirst_perm {hsh : String} {r : Record}
    (hr : r.content_hash = hsh) :
    ∀ {l₁ l₂ : List Record}, List.Perm l₁ l₂ → (hashesOf l₁).Nodup →
      List.Perm (replaceFirstByHash l₁ hsh r).1
        (replaceFirstByHash l₂ hsh r).1 := by
  intro l₁ l₂ hp
  induction hp with
  | nil => intro _; exact List.Perm.refl _
  | cons x p ih =>
      intro hnd
      rw [hashesOf_cons] at hnd
      have hnd' := (List.nodup_cons.mp hnd).2
      by_cases hx : x.content_hash = hsh
      · simp only [replaceFirstByHash, if_pos hx]
        exact p.cons r
      · simp only [replaceFirstByHash, if_neg hx]
        exact (ih hnd').cons x
  | swap x y l =>
      intro hnd
      rw [hashesOf_cons, hashesOf_cons] at hnd
      by_cases hy : y.content_hash = hsh <;> by_cases hx : x.content_hash = hsh
      · exfalso
        have hne := (List.nodup_cons.mp hnd).1
        exact hne (by rw [hy, ← hx]; exact List.mem_cons_self _ _)
      · simp only [replaceFirstByHash, if_pos hy, if_neg hx]
        exact List.Perm.swap x r l
      · simp only [replaceFirstByHash, if_neg hy, if_pos hx]
        exact List.Perm.swap r y l
      · simp only [replaceFirstByHash, if_neg hy, if_neg hx]
        exact List.Perm.swap x y _
  | trans p₁ p₂ ih₁ ih₂ =>
      intro hnd
      exact (ih₁ hnd).trans (ih₂ ((hashesOf_perm p₁).nodup_iff.mp hnd))

/-- The hash list of an appended record list. -/
theorem hashesOf_append_singleton (l : List Record) (f : Record) :
    hashesOf (l ++ [f]) = hashesOf l ++ [f.content_hash] := by
  simp [hashesOf]

/-- format_update preserves the record's content hash. -/
theorem format_update_hash (u : RawUpdate) :
    (format_update u).content_hash = rawHash u := rfl

/-- One loop iteration preserves the per-category invariant. -/
theorem catInv_step {s : ReconcileState} (u : RawUpdate) (hi : CatInv s) :
    CatInv (processUpdate s u) := by
  by_cases h0 : rawHash u = ""
  · rw [processUpdate_skip h0]
    exact hi
  by_cases hk : rawHash u ∈ s.hashes
  · obtain ⟨hm, hh, _, _, hnotif⟩ := processUpdate_known h0 hk
    intro c
    obtain ⟨⟨hmnd, hmsub⟩, hnn⟩ := hi c
    rw [hm, hh, hnotif]
    refine ⟨?_, hnn⟩
    by_cases hc : c = determine_category u
    · subst hc
      rw [getCat_setCat_self, replaceFirst_hashesOf (format_update_hash u)]
      exact ⟨hmnd, hmsub⟩
    · rw [getCat_setCat_ne _ _ hc]
      exact ⟨hmnd, hmsub⟩
  · obtain ⟨hm, hh, _, _, hnotif⟩ := processUpdate_fresh h0 hk
    intro c
    obtain ⟨⟨hmnd, hmsub⟩, ⟨hnnd, hnsub⟩⟩ := hi c
    rw [hm, hh, hnotif]
    constructor
    · by_cases hc : c = determine_category u
      · subst hc
        rw [getCat_setCat_self, hashesOf_append_singleton,
          format_update_hash]
        have hfresh : rawHash u
            ∉ hashesOf (getCat s.main (determine_category u)) :=
          fun hin => hk (hmsub _ hin)
        constructor
        · exact (List.perm_append_singleton _ _).nodup_iff.mpr
            (List.nodup_cons.mpr ⟨hfresh, hmnd⟩)
        · intro h hhm
          rcases List.mem_append.mp hhm with hl | hr
          · exact List.mem_append.mpr (Or.inl (hmsub h hl))
          · rw [List.mem_singleton] at hr
            subst hr
            simp
      · rw [getCat_setCat_ne _ _ hc]
        exact ⟨hmnd, fun h hhm => List.mem_append.mpr (Or.inl (hmsub h hhm))⟩
    · by_cases hc : c = determine_category u
      · subst hc
        rw [getNCat_setNCat_self, hashesOf_append_singleton,
          format_update_hash]
        have hfresh : rawHash u
            ∉ hashesOf (getNCat s.notif (determine_category u)) :=
          fun hin => hk (hnsub _ hin)
        constructor
        · exact (List.perm_append_singleton _ _).nodup_iff.mpr
            (List.nodup_cons.mpr ⟨hfresh, hnnd⟩)
        · intro h hhm
          rcases List.mem_append.mp hhm with hl | hr
          · exact List.mem_append.mpr (Or.inl (hnsub h hl))
          · rw [List.mem_singleton] at hr
            subst hr
            simp
      · rw [getNCat_setNCat_ne _ _ hc]
        exact ⟨hnnd, fun h hhm => List.mem_append.mpr (Or.inl (hnsub h hhm))⟩

/-- One loop iteration is a congruence for state equivalence. -/
theorem stateEquiv_step {s₁ s₂ : ReconcileState} (u : RawUpdate)
    (he : StateEquiv s₁ s₂) (hi₁ : CatInv s₁) :
    StateEquiv (processUpdate s₁ u) (processUpdate s₂ u) := by
  by_cases h0 : rawHash u = ""
  · rw [processUpdate_skip h0, processUpdate_skip h0]
    exact he
  by_cases hk : rawHash u ∈ s₁.hashes
  · have hk₂ : rawHash u ∈ s₂.hashes := (he.2.2.1 _).mp hk
    obtain ⟨hm₁, hh₁, hn₁, hu₁, hnt₁⟩ := processUpdate_known h0 hk
    obtain ⟨hm₂, hh₂, hn₂, hu₂, hnt₂⟩ := processUpdate_known h0 hk₂
    refine ⟨?_, ?_, ?_, ?_, ?_⟩
    · intro c
      rw [hm₁, hm₂]
      by_cases hc : c = determine_category u
      · subst hc
        rw [getCat_setCat_self, getCat_setCat_self]
        exact replaceFirst_perm (format_update_hash u) (he.1 _) ((hi₁ _).1.1)
      · rw [getCat_setCat_ne _ _ hc, getCat_setCat_ne _ _ hc]
        exact he.1 c
    · intro c
      rw [hnt₁, hnt₂]
      exact he.2.1 c
    · intro h
      rw [hh₁, hh₂]
      exact he.2.2.1 h
    · rw [hn₁, hn₂]
      exact he.2.2.2.1
    · rw [hu₁, hu₂, replaceFirst_found_perm (he.1 (determine_category u)),
        he.2.2.2.2]
  · have hk₂ : rawHash u ∉ s₂.hashes := fun hh => hk ((he.2.2.1 _).mpr hh)
    obtain ⟨hm₁, hh₁, hn₁, hu₁, hnt₁⟩ := processUpdate_fresh h0 hk
    obtain ⟨hm₂, hh₂, hn₂, hu₂, hnt₂⟩ := processUpdate_fresh h0 hk₂
    refine ⟨?_, ?_, ?_, ?_, ?_⟩
    · intro c
      rw [hm₁, hm₂]
      by_cases hc : c = determine_category u
      · subst hc
        rw [getCat_setCat_self, getCat_setCat_self]
        exact (he.1 _).append_right _
      · rw [getCat_setCat_ne _ _ hc, getCat_setCat_ne _ _ hc]
        exact he.1 c
    · intro c
      rw [hnt₁, hnt₂]
      by_cases hc : c = determine_category u
      · subst hc
        rw [getNCat_setNCat_self, getNCat_setNCat_self]
        exact (he.2.1 _).append_right _
      · rw [getNCat_setNCat_ne _ _ hc, getNCat_setNCat_ne _ _ hc]
        exact he.2.1 c
    · intro h
      rw [hh₁, hh₂]
      simp [List.mem_append, he.2.2.1 h]
    · rw [hn₁, hn₂, he.2.2.2.1]
    · rw [hu₁, hu₂, he.2.2.2.2]

/-- The whole loop is a congruence for state equivalence. -/
theorem foldl_stateEquiv (l : List RawUpdate) :
    ∀ {s₁ s₂ : ReconcileState}, StateEquiv s₁ s₂ → CatInv s₁ →
      StateEquiv (l.foldl processUpdate s₁) (l.foldl processUpdate s₂) := by
  induction l with
  | nil => intro s₁ s₂ he _; exact he
  | cons u rest ih =>
      intro s₁ s₂ he hi
      simp only [List.foldl_cons]
      exact ih (stateEquiv_step u he hi) (catInv_step u hi)

/-- The whole loop preserves the per-category invariant. -/
theorem catInv_foldl (l : List RawUpdate) :
    ∀ {s : ReconcileState}, CatInv s → CatInv (l.foldl processUpdate s) := by
  induction l with
  | nil => intro s hi; exact hi
  | cons u rest ih =>
      intro s hi
      simp only [List.foldl_cons]
      exact ih (catInv_step u hi)


theorem setCat_setCat_self (d : MainData) (c : Category)
    (l l' : List Record) : setCat (setCat d c l) c l' = setCat d c l' := by
  cases c <;> rfl

theorem setNCat_setNCat_self (d : NotificationData) (c : Category)
    (l l' : List Record) : setNCat (setNCat d c l) c l' = setNCat d c l' := by
  cases c <;> rfl

/-- The replacement flag only depends on the hash list. -/
theorem replaceFirst_found_congr {l₁ l₂ : List Record} {hsh : String}
    {r : Record} (hc : hashesOf l₁ = hashesOf l₂) :
    (replaceFirstByHash l₁ hsh r).2 = (replaceFirstByHash l₂ hsh r).2 := by
  by_cases hm : hsh ∈ hashesOf l₁
  · rw [replaceFirst_found_iff.mpr hm,
      replaceFirst_found_iff.mpr (hc ▸ hm)]
  · have hm₂ : hsh ∉ hashesOf l₂ := fun hh => hm (hc ▸ hh)
    have h1 : (replaceFirstByHash l₁ hsh r).2 = false := by
      cases hb : (replaceFirstByHash l₁ hsh r).2 with
      | false => rfl
      | true => exact absurd (replaceFirst_found_iff.mp hb) hm
    have h2 : (replaceFirstByHash l₂ hsh r).2 = false := by
      cases hb : (replaceFirstByHash l₂ hsh r).2 with
      | false => rfl
      | true => exact absurd (replaceFirst_found_iff.mp hb) hm₂
    rw [h1, h2]

/-- Swapping an update-branch record with a new-branch record yields
equivalent (indeed equal up to arithmetic) states. -/
theorem processUpdate_swap_known_fresh (s : ReconcileState) (u v : RawUpdate)
    (h0u : rawHash u ≠ "") (h0v : rawHash v ≠ "")
    (hne : rawHash u ≠ rawHash v)
    (hku : rawHash u ∈ s.hashes) (hkv : rawHash v ∉ s.hashes) :
    StateEquiv (processUpdate (processUpdate s u) v)
      (processUpdate (processUpdate s v) u) := by
  obtain ⟨hmU, hhU, hnU, huU, hntU⟩ := processUpdate_known h0u hku
  obtain ⟨hmV, hhV, hnV, huV, hntV⟩ := processUpdate_fresh h0v hkv
  have hkv1 : rawHash v ∉ (processUpdate s u).hashes := by
    rw [hhU]; exact hkv
  have hku2 : rawHash u ∈ (processUpdate s v).hashes := by
    rw [hhV]; exact List.mem_append.mpr (Or.inl hku)
  obtain ⟨hmV1, hhV1, hnV1, huV1, hntV1⟩ := processUpdate_fresh h0v hkv1
  obtain ⟨hmU2, hhU2, hnU2, huU2, hntU2⟩ := processUpdate_known h0u hku2
  have hfv : (format_update v).content_hash ≠ rawHash u := by
    rw [format_update_hash]
    exact fun he => hne he.symm
  refine ⟨?_, ?_, ?_, ?_, ?_⟩
  · intro c
    rw [hmV1, hmU, hmU2, hmV]
    by_cases hcc : determine_category u = determine_category v
    · rw [hcc, getCat_setCat_self, setCat_setCat_self, getCat_setCat_self,
        setCat_setCat_self, replaceFirst_append_last hfv]
    · have hcc' : determine_category v ≠ determine_category u :=
        fun h => hcc h.symm
      rw [getCat_setCat_ne _ _ hcc', getCat_setCat_ne _ _ hcc,
        setCat_comm _ hcc]
  · intro c
    rw [hntV1, hntU, hntU2, hntV]
  · intro h
    rw [hhV1, hhU, hhU2, hhV]
  · rw [hnV1, hnU, hnU2, hnV]
  · rw [huV1, huU, huU2, huV, hmV]
    by_cases hcc : determine_category u = determine_category v
    · rw [hcc, getCat_setCat_self, replaceFirst_append_last hfv]
    · rw [getCat_setCat_ne _ _ hcc]

/-- Swapping two update-branch records with different hashes yields
equivalent states. -/
theorem processUpdate_swap_known_known (s : ReconcileState) (u v : RawUpdate)
    (h0u : rawHash u ≠ "") (h0v : rawHash v ≠ "")
    (hne : rawHash u ≠ rawHash v)
    (hku : rawHash u ∈ s.hashes) (hkv : rawHash v ∈ s.hashes) :
    StateEquiv (processUpdate (processUpdate s u) v)
      (processUpdate (processUpdate s v) u) := by
  obtain ⟨hmU, hhU, hnU, huU, hntU⟩ := processUpdate_known h0u hku
  obtain ⟨hmV, hhV, hnV, huV, hntV⟩ := processUpdate_known h0v hkv
  have hkv1 : rawHash v ∈ (processUpdate s u).hashes := by
    rw [hhU]; exact hkv
  have hku2 : rawHash u ∈ (processUpdate s v).hashes := by
    rw [hhV]; exact hku
  obtain ⟨hmV1, hhV1, hnV1, huV1, hntV1⟩ := processUpdate_known h0v hkv1
  obtain ⟨hmU2, hhU2, hnU2, huU2, hntU2⟩ := processUpdate_known h0u hku2
  refine ⟨?_, ?_, ?_, ?_, ?_⟩
  · intro c
    rw [hmV1, hmU, hmU2, hmV]
    by_cases hcc : determine_category u = determine_category v
    · rw [hcc, getCat_setCat_self, setCat_setCat_self, getCat_setCat_self,
        setCat_setCat_self,
        replaceFirst_comm hne (format_update_hash u) (format_update_hash v)]
    · have hcc' : determine_category v ≠ determine_category u :=
        fun h => hcc h.symm
      rw [getCat_setCat_ne _ _ hcc', getCat_setCat_ne _ _ hcc,
        setCat_comm _ hcc]
  · intro c
    rw [hntV1, hntU, hntU2, hntV]
  · intro h
    rw [hhV1, hhU, hhU2, hhV]
  · rw [hnV1, hnU, hnU2, hnV]
  · rw [huV1, huU, huU2, huV, hmV, hmU]
    by_cases hcc : determine_category u = determine_category v
    · rw [hcc, getCat_setCat_self, getCat_setCat_self,
        replaceFirst_found_congr
          (replaceFirst_hashesOf (format_update_hash u)),
        replaceFirst_found_congr
          (replaceFirst_hashesOf (format_update_hash v))]
      omega
    · have hcc' : determine_category v ≠ determine_category u :=
        fun h => hcc h.symm
      rw [getCat_setCat_ne _ _ hcc', getCat_setCat_ne _ _ hcc]
      omega

/-- Swapping two new-branch records with different hashes yields equivalent
states. -/
theorem processUpdate_swap_fresh_fresh (s : ReconcileState) (u v : RawUpdate)
    (h0u : rawHash u ≠ "") (h0v : rawHash v ≠ "")
    (hne : rawHash u ≠ rawHash v)
    (hku : rawHash u ∉ s.hashes) (hkv : rawHash v ∉ s.hashes) :
    StateEquiv (processUpdate (processUpdate s u) v)
      (processUpdate (processUpdate s v) u) := by
  obtain ⟨hmU, hhU, hnU, huU, hntU⟩ := processUpdate_fresh h0u hku
  obtain ⟨hmV, hhV, hnV, huV, hntV⟩ := processUpdate_fresh h0v hkv
  have hkv1 : rawHash v ∉ (processUpdate s u).hashes := by
    rw [hhU]
    simp only [List.mem_append, List.mem_singleton]
    rintro (h | h)
    · exact hkv h
    · exact hne h.symm
  have hku2 : rawHash u ∉ (processUpdate s v).hashes := by
    rw [hhV]
    simp only [List.mem_append, List.mem_singleton]
    rintro (h | h)
    · exact hku h
    · exact hne h
  obtain ⟨hmV1, hhV1, hnV1, huV1, hntV1⟩ := processUpdate_fresh h0v hkv1
  obtain ⟨hmU2, hhU2, hnU2, huU2, hntU2⟩ := processUpdate_fresh h0u hku2
  refine ⟨?_, ?_, ?_, ?_, ?_⟩
  · intro c
    rw [hmV1, hmU, hmU2, hmV]
    by_cases hcc : determine_category u = determine_category v
    · rw [hcc, getCat_setCat_self, setCat_setCat_self, getCat_setCat_self,
        setCat_setCat_self]
      by_cases hc : c = determine_category v
      · subst hc
        rw [getCat_setCat_self, getCat_setCat_self, List.append_assoc,
          List.append_assoc]
        exact List.Perm.append_left _
          (List.Perm.swap (format_update v) (format_update u) [])
      · rw [getCat_setCat_ne _ _ hc, getCat_setCat_ne _ _ hc]
    · have hcc' : determine_category v ≠ determine_category u :=
        fun h => hcc h.symm
      rw [getCat_setCat_ne _ _ hcc', getCat_setCat_ne _ _ hcc,
        setCat_comm _ hcc]
  · intro c
    rw [hntV1, hntU, hntU2, hntV]
    by_cases hcc : determine_category u = determine_category v
    · rw [hcc, getNCat_setNCat_self, setNCat_setNCat_self,
        getNCat_setNCat_self, setNCat_setNCat_self]
      by_cases hc : c = determine_category v
      · subst hc
        rw [getNCat_setNCat_self, getNCat_setNCat_self, List.append_assoc,
          List.append_assoc]
        exact List.Perm.append_left _
          (List.Perm.swap (format_update v) (format_update u) [])
      · rw [getNCat_setNCat_ne _ _ hc, getNCat_setNCat_ne _ _ hc]
    · have hcc' : determine_category v ≠ determine_category u :=
        fun h => hcc h.symm
      rw [getNCat_setNCat_ne _ _ hcc', getNCat_setNCat_ne _ _ hcc,
        setNCat_comm _ hcc]
  · intro h
    rw [hhV1, hhU, hhU2, hhV]
    simp only [List.mem_append, List.mem_singleton]
    tauto
  · rw [hnV1, hnU, hnU2, hnV]
  · rw [huV1, huU, huU2, huV]

/-- Swapping two adjacent records with different (or empty) hashes yields
equivalent states. -/
theorem processUpdate_swap (s : ReconcileState) (u v : RawUpdate)
    (hne : rawHash u = "" ∨ rawHash v = "" ∨ rawHash u ≠ rawHash v) :
    StateEquiv (processUpdate (processUpdate s u) v)
      (processUpdate (processUpdate s v) u) := by
  by_cases h0u : rawHash u = ""
  · rw [processUpdate_skip h0u, processUpdate_skip h0u]
    exact stateEquiv_refl _
  by_cases h0v : rawHash v = ""
  · rw [processUpdate_skip h0v, processUpdate_skip h0v]
    exact stateEquiv_refl _
  have hne' : rawHash u ≠ rawHash v := by tauto
  by_cases hku : rawHash u ∈ s.hashes <;> by_cases hkv : rawHash v ∈ s.hashes
  · exact processUpdate_swap_known_known s u v h0u h0v hne' hku hkv
  · exact processUpdate_swap_known_fresh s u v h0u h0v hne' hku hkv
  · exact stateEquiv_symm
      (processUpdate_swap_known_fresh s v u h0v h0u
        (fun h => hne' h.symm) hkv hku)
  · exact processUpdate_swap_fresh_fresh s u v h0u h0v hne' hku hkv


/-- Cons characterization of the non-empty batch hashes. -/
theorem batchHashes_cons (x : RawUpdate) (l : List RawUpdate) :
    batchHashes (x :: l)
      = if rawHash x = "" then batchHashes l
        else rawHash x :: batchHashes l := by
  by_cases h : rawHash x = "" <;>
    simp [batchHashes, List.filter_cons, h]

/-- Distinctness of batch hashes passes to the tail. -/
theorem batchHashes_nodup_tail {x : RawUpdate} {l : List RawUpdate}
    (h : (batchHashes (x :: l)).Nodup) : (batchHashes l).Nodup := by
  rw [batchHashes_cons] at h
  by_cases h0 : rawHash x = ""
  · rwa [if_pos h0] at h
  · rw [if_neg h0] at h
    exact (List.nodup_cons.mp h).2

/-- Two adjacent batch records have distinct hashes unless one is empty. -/
theorem batchHashes_swap_ne {x y : RawUpdate} {l : List RawUpdate}
    (h : (batchHashes (y :: x :: l)).Nodup) :
    rawHash y = "" ∨ rawHash x = "" ∨ rawHash y ≠ rawHash x := by
  by_cases h0y : rawHash y = ""
  · exact Or.inl h0y
  by_cases h0x : rawHash x = ""
  · exact Or.inr (Or.inl h0x)
  refine Or.inr (Or.inr ?_)
  rw [batchHashes_cons, if_neg h0y, batchHashes_cons, if_neg h0x] at h
  have := (List.nodup_cons.mp h).1
  intro he
  exact this (he ▸ List.mem_cons_self _ _)

/-- Batch hashes are stable under permutation (as multisets). -/
theorem batchHashes_perm {l₁ l₂ : List RawUpdate} (hp : List.Perm l₁ l₂) :
    List.Perm (batchHashes l₁) (batchHashes l₂) :=
  (hp.map rawHash).filter _

/-- Processing two permuted batches with pairwise-distinct hashes from the
same invariant-satisfying state yields equivalent states. -/
theorem foldl_processUpdate_perm {l₁ l₂ : List RawUpdate}
    (hp : List.Perm l₁ l₂) :
    ∀ {s : ReconcileState}, (batchHashes l₁).Nodup → CatInv s →
      StateEquiv (l₁.foldl processUpdate s) (l₂.foldl processUpdate s) := by
  induction hp with
  | nil => intro s _ _; exact stateEquiv_refl _
  | cons x p ih =>
      intro s hnd hi
      simp only [List.foldl_cons]
      exact ih (batchHashes_nodup_tail hnd) (catInv_step x hi)
  | swap x y l =>
      intro s hnd hi
      simp only [List.foldl_cons]
      exact foldl_stateEquiv l (processUpdate_swap s y x (batchHashes_swap_ne hnd))
        (catInv_step x (catInv_step y hi))
  | trans p₁ p₂ ih₁ ih₂ =>
      intro s hnd hi
      exact stateEquiv_trans (ih₁ hnd hi)
        (ih₂ ((batchHashes_perm p₁).nodup_iff.mp hnd) hi)

/-- Every record of a category list after the loop comes from the starting
snapshot or from the formatted batch. -/
theorem foldl_mem_main (l : List RawUpdate) :
    ∀ {s : ReconcileState} {c : Category} {r : Record},
      r ∈ getCat (l.foldl processUpdate s).main c →
      r ∈ getCat s.main c ∨ r ∈ l.map format_update := by
  induction l with
  | nil => intro s c r h; exact Or.inl h
  | cons u rest ih =>
      intro s c r h
      simp only [List.foldl_cons] at h
      rcases ih h with hmem | hmem
      · by_cases h0 : rawHash u = ""
        · rw [processUpdate_skip h0] at hmem
          exact Or.inl hmem
        by_cases hk : rawHash u ∈ s.hashes
        · obtain ⟨hm, _, _, _, _⟩ := processUpdate_known h0 hk
          rw [hm] at hmem
          by_cases hc : c = determine_category u
          · subst hc
            rw [getCat_setCat_self] at hmem
            rcases replaceFirst_mem hmem with h' | h'
            · exact Or.inl h'
            · exact Or.inr (by simp [h'])
          · rw [getCat_setCat_ne _ _ hc] at hmem
            exact Or.inl hmem
        · obtain ⟨hm, _, _, _, _⟩ := processUpdate_fresh h0 hk
          rw [hm] at hmem
          by_cases hc : c = determine_category u
          · subst hc
            rw [getCat_setCat_self] at hmem
            rcases List.mem_append.mp hmem with h' | h'
            · exact Or.inl h'
            · rw [List.mem_singleton] at h'
              exact Or.inr (by simp [h'])
          · rw [getCat_setCat_ne _ _ hc] at hmem
            exact Or.inl hmem
      · exact Or.inr (List.mem_cons_of_mem _ hmem)

/-- Every record of a delta category list after the loop comes from the
starting delta or from the formatted batch. -/
theorem foldl_mem_notif (l : List RawUpdate) :
    ∀ {s : ReconcileState} {c : Category} {r : Record},
      r ∈ getNCat (l.foldl processUpdate s).notif c →
      r ∈ getNCat s.notif c ∨ r ∈ l.map format_update := by
  induction l with
  | nil => intro s c r h; exact Or.inl h
  | cons u rest ih =>
      intro s c r h
      simp only [List.foldl_cons] at h
      rcases ih h with hmem | hmem
      · by_cases h0 : rawHash u = ""
        · rw [processUpdate_skip h0] at hmem
          exact Or.inl hmem
        by_cases hk : rawHash u ∈ s.hashes
        · obtain ⟨_, _, _, _, hnt⟩ := processUpdate_known h0 hk
          rw [hnt] at hmem
          exact Or.inl hmem
        · obtain ⟨_, _, _, _, hnt⟩ := processUpdate_fresh h0 hk
          rw [hnt] at hmem
          by_cases hc : c = determine_category u
          · subst hc
            rw [getNCat_setNCat_self] at hmem
            rcases List.mem_append.mp hmem with h' | h'
            · exact Or.inl h'
            · rw [List.mem_singleton] at h'
              exact Or.inr (by simp [h'])
          · rw [getNCat_setNCat_ne _ _ hc] at hmem
            exact Or.inl hmem
      · exact Or.inr (List.mem_cons_of_mem _ hmem)

/-- setNCat keeps the delta metadata. -/
theorem setNCat_meta (n : NotificationData) (c : Category) (l : List Record) :
    (setNCat n c l).last_updated = n.last_updated ∧
    (setNCat n c l).scrape_timestamp = n.scrape_timestamp := by
  cases c <;> exact ⟨rfl, rfl⟩

/-- The loop never touches the delta metadata. -/
theorem foldl_notif_meta (l : List RawUpdate) :
    ∀ s : ReconcileState,
      (l.foldl processUpdate s).notif.last_updated = s.notif.last_updated ∧
      (l.foldl processUpdate s).notif.scrape_timestamp
        = s.notif.scrape_timestamp := by
  induction l with
  | nil => intro s; exact ⟨rfl, rfl⟩
  | cons u rest ih =>
      intro s
      simp only [List.foldl_cons]
      obtain ⟨ih1, ih2⟩ := ih (processUpdate s u)
      rw [ih1, ih2]
      by_cases h0 : rawHash u = ""
      · rw [processUpdate_skip h0]
        exact ⟨rfl, rfl⟩
      by_cases hk : rawHash u ∈ s.hashes
      · obtain ⟨_, _, _, _, hnt⟩ := processUpdate_known h0 hk
        rw [hnt]
        exact ⟨rfl, rfl⟩
      · obtain ⟨_, _, _, _, hnt⟩ := processUpdate_fresh h0 hk
        rw [hnt]
        exact setNCat_meta _ _ _

/-- Records whose keys tie in both directions of the sort order have equal
scraped_at keys. -/
theorem sortRel_key_eq {a b : Record} (h₁ : sortRel a b) (h₂ : sortRel b a) :
    a.scraped_at = b.scraped_at := by
  have hdata : a.scraped_at.data = b.scraped_at.data :=
    charsLt_conn _ _ h₁ h₂
  have hstr : ∀ x y : String, x.data = y.data → x = y := by
    intro x y h
    cases x
    cases y
    exact congrArg String.mk h
  exact hstr _ _ hdata

/-- Two sorted lists that are permutations of one another and have
pairwise-distinct keys are equal. -/
theorem sorted_eq_of_perm_keyNodup :
    ∀ {l₁ l₂ : List Record}, List.Perm l₁ l₂ → List.Sorted sortRel l₁ →
      List.Sorted sortRel l₂ →
      (l₁.map (·.scraped_at)).Nodup → l₁ = l₂ := by
  intro l₁
  induction l₁ with
  | nil => intro l₂ hp _ _ _; exact hp.nil_eq
  | cons a t₁ ih =>
      intro l₂ hp hs₁ hs₂ hknd
      cases l₂ with
      | nil => exact absurd hp.eq_nil (List.cons_ne_nil a t₁)
      | cons b t₂ =>
          have hab : a = b := by
            by_cases heq : a = b
            · exact heq
            · have hbmem : b ∈ a :: t₁ :=
                hp.mem_iff.mpr (List.mem_cons_self b t₂)
              have hamem : a ∈ b :: t₂ :=
                hp.mem_iff.mp (List.mem_cons_self a t₁)
              have hb_t₁ : b ∈ t₁ := by
                rcases List.mem_cons.mp hbmem with h | h
                · exact absurd h.symm heq
                · exact h
              have ha_t₂ : a ∈ t₂ := by
                rcases List.mem_cons.mp hamem with h | h
                · exact absurd h heq
                · exact h
              have h₁ : sortRel a b := List.rel_of_sorted_cons hs₁ b hb_t₁
              have h₂ : sortRel b a := List.rel_of_sorted_cons hs₂ a ha_t₂
              have hkey : a.scraped_at = b.scraped_at := sortRel_key_eq h₁ h₂
              exfalso
              have hnotin : a.scraped_at ∉ t₁.map (·.scraped_at) :=
                (List.nodup_cons.mp hknd).1
              exact hnotin (by rw [hkey]; exact List.mem_map_of_mem _ hb_t₁)
          subst hab
          have ht := ih hp.cons_inv (List.sorted_cons.mp hs₁).2
            (List.sorted_cons.mp hs₂).2 (List.nodup_cons.mp hknd).2
          rw [ht]


theorem getCat_subset_allRecords {d : MainData} {c : Category} {r : Record}
    (h : r ∈ getCat d c) : r ∈ allRecords d := by
  cases c <;> simp [allRecords, getCat] at h ⊢ <;> tauto

/-- A list with duplicate-free hashes whose records all come from a pool with
pairwise-distinct keys itself has pairwise-distinct keys. -/
theorem keyNodup_of_hashNodup {p S : List Record}
    (hsub : ∀ r ∈ p, r ∈ S)
    (hkeys : (S.map (·.scraped_at)).Nodup)
    (hhash : (hashesOf p).Nodup) :
    (p.map (·.scraped_at)).Nodup := by
  have hinj := List.inj_on_of_nodup_map hkeys
  have hpw : p.Pairwise (fun x y => x.content_hash ≠ y.content_hash) :=
    List.pairwise_map.mp hhash
  have hpw2 : p.Pairwise (fun x y => x.scraped_at ≠ y.scraped_at) := by
    refine List.Pairwise.imp_of_mem ?_ hpw
    intro a b ha hb hne he
    exact hne (by rw [hinj (hsub a ha) (hsub b hb) he])
  exact List.pairwise_map.mpr hpw2

/-- Claim C8 amended: reconciliation of a batch is independent of arrival
order provided there are no hash or sort-key collisions: if the batch's
non-empty hashes are pairwise distinct, the snapshot's per-category hashes
are pairwise distinct, and the scraped_at keys of the snapshot records and
formatted batch records are pairwise distinct, then any two permutations of
the batch produce identical results - identical orderings of every category
list of both snapshots, identical metadata and identical counters.  (The
counterexample shows the orderings can differ when two records tie on
scraped_at; a further hypothesis-free guarantee does not hold.) -/
theorem order_independence (now : String) (d : MainData)
    (l₁ l₂ : List RawUpdate) (hperm : List.Perm l₁ l₂)
    (hbatch : (batchHashes l₁).Nodup)
    (hsnap : ∀ c, (hashesOf (getCat d c)).Nodup)
    (hkeys : ((allRecords d ++ l₁.map format_update).map
      (·.scraped_at)).Nodup) :
    process_new_scraped_data now d l₁ = process_new_scraped_data now d l₂ := by
  have hinit : CatInv (initState now d) := by
    intro c
    refine ⟨⟨hsnap c, ?_⟩, ?_⟩
    · intro h hh
      exact mem_get_existing_hashes_of_cat hh
    · cases c <;> simp [initState, getNCat, hashesOf]
  have hequiv := foldl_processUpdate_perm hperm hbatch hinit
  have hinv₁ := catInv_foldl l₁ hinit
  have hmaincat : ∀ c,
      sortRecords (getCat (l₁.foldl processUpdate (initState now d)).main c)
        = sortRecords
            (getCat (l₂.foldl processUpdate (initState now d)).main c) := by
    intro c
    have hp := hequiv.1 c
    have hsub : ∀ r ∈ getCat (l₁.foldl processUpdate
        (initState now d)).main c,
        r ∈ allRecords d ++ l₁.map format_update := by
      intro r hr
      rcases foldl_mem_main l₁ hr with hin | hin
      · exact List.mem_append.mpr (Or.inl (getCat_subset_allRecords hin))
      · exact List.mem_append.mpr (Or.inr hin)
    have hknd := keyNodup_of_hashNodup hsub hkeys ((hinv₁ c).1.1)
    have hknds : ((sortRecords (getCat (l₁.foldl processUpdate
        (initState now d)).main c)).map (·.scraped_at)).Nodup :=
      ((List.perm_insertionSort sortRel _).map _).nodup_iff.mpr hknd
    exact sorted_eq_of_perm_keyNodup
      (((List.perm_insertionSort _ _).trans hp).trans
        (List.perm_insertionSort _ _).symm)
      (List.sorted_insertionSort sortRel _)
      (List.sorted_insertionSort sortRel _) hknds
  have hnotifcat : ∀ c,
      sortRecords (getNCat (l₁.foldl processUpdate (initState now d)).notif c)
        = sortRecords
            (getNCat (l₂.foldl processUpdate (initState now d)).notif c) := by
    intro c
    have hp := hequiv.2.1 c
    have hsub : ∀ r ∈ getNCat (l₁.foldl processUpdate
        (initState now d)).notif c,
        r ∈ allRecords d ++ l₁.map format_update := by
      intro r hr
      rcases foldl_mem_notif l₁ hr with hin | hin
      · exfalso
        cases c <;> simp [initState, getNCat] at hin
      · exact List.mem_append.mpr (Or.inr hin)
    have hknd := keyNodup_of_hashNodup hsub hkeys ((hinv₁ c).2.1)
    have hknds : ((sortRecords (getNCat (l₁.foldl processUpdate
        (initState now d)).notif c)).map (·.scraped_at)).Nodup :=
      ((List.perm_insertionSort sortRel _).map _).nodup_iff.mpr hknd
    exact sorted_eq_of_perm_keyNodup
      (((List.perm_insertionSort _ _).trans hp).trans
        (List.perm_insertionSort _ _).symm)
      (List.sorted_insertionSort sortRel _)
      (List.sorted_insertionSort sortRel _) hknds
  have hfm : finalizeMain now (l₁.foldl processUpdate (initState now d)).main
      = finalizeMain now (l₂.foldl processUpdate (initState now d)).main := by
    have hj := hmaincat .jee
    have hg := hmaincat .gate
    have hv := hmaincat .jee_adv
    have hu := hmaincat .upsc
    simp only [getCat] at hj hg hv hu
    simp [finalizeMain, hj, hg, hv, hu]
  have hm₁ := foldl_notif_meta l₁ (initState now d)
  have hm₂ := foldl_notif_meta l₂ (initState now d)
  have hfn : finalizeNotif now (l₁.foldl processUpdate (initState now d)).notif
      = finalizeNotif now (l₂.foldl processUpdate (initState now d)).notif := by
    have hj := hnotifcat .jee
    have hg := hnotifcat .gate
    have hv := hnotifcat .jee_adv
    have hu := hnotifcat .upsc
    simp only [getNCat] at hj hg hv hu
    simp [finalizeNotif, hj, hg, hv, hu, hm₁.1, hm₁.2, hm₂.1, hm₂.2]
  simp only [process_new_scraped_data]
  rw [hfm, hfn, hequiv.2.2.2.1, hequiv.2.2.2.2]

/-- Claim C8 amended witness: two records with distinct hashes and distinct
scraped_at keys give identical results in either order. -/
theorem order_independence_witness :
    process_new_scraped_data "T" emptyMainData [tieUpdateA, noTitleUpdate]
      = process_new_scraped_data "T" emptyMainData
          [noTitleUpdate, tieUpdateA] :=
  order_independence "T" emptyMainData [tieUpdateA, noTitleUpdate]
    [noTitleUpdate, tieUpdateA]
    (List.Perm.swap noTitleUpdate tieUpdateA [])
    (by decide)
    (by intro c; cases c <;> simp [emptyMainData, getCat, hashesOf])
    (by decide)


end Scraper
